import Mathlib

/-!
Verification development for the StudentMCP knowledge-graph server
(`src/index.ts`).  The TypeScript source is shallowly embedded: pure
string/array manipulation becomes structural recursion over `List Char` /
`List`, the two persisted JSON documents (knowledge graph, session states)
become explicit values threaded through the operations, fallible operations
(JavaScript `throw`) return `Except String`, and JavaScript timestamps are
modelled as `Int` milliseconds since the Unix epoch (the process runs with an
unspecified local timezone; we model it as UTC, so no DST jumps exist and
`setDate(getDate () + n)` adds exactly `n * 86400000` milliseconds).
JavaScript `String.prototype.toLowerCase` is modelled as ASCII lowercasing
(`Char.toLower`), with which it agrees on the ASCII range.  JavaScript's
`Array.prototype.sort`, specified to be stable, is modelled by the stable
`List.insertionSort`; a stable sort's output is uniquely determined by the
comparator and the input order, so any stable sort is a faithful model.
-/

namespace StudentMCP

/-! ### JavaScript string primitives -/

/-- Character class of the JavaScript regular-expression `\s` (whitespace),
    which is also the set trimmed by `String.prototype.trim`. -/
def jsIsSpace (c : Char) : Bool :=
  c.toNat == 9 || c.toNat == 10 || c.toNat == 11 || c.toNat == 12 ||
  c.toNat == 13 || c.toNat == 32 || c.toNat == 0xa0 || c.toNat == 0x1680 ||
  (0x2000 ≤ c.toNat && c.toNat ≤ 0x200a) ||
  c.toNat == 0x2028 || c.toNat == 0x2029 || c.toNat == 0x202f ||
  c.toNat == 0x205f || c.toNat == 0x3000 || c.toNat == 0xfeff

/-- Model of `String.prototype.toLowerCase` (ASCII range). -/
def jsToLower (s : String) : String := String.mk (s.data.map Char.toLower)

/-- Model of `str.split(/\s+/)` on the character list: split at maximal
    nonempty runs of whitespace, keeping empty pieces at both ends exactly as
    JavaScript does (`"".split(/\s+/) = [""]`, `" a ".split(/\s+/) =
    ["", "a", ""]`).  `consHead` prepends a character to the first piece
    (the no-separator step). -/
def consHead (c : Char) : List (List Char) → List (List Char)
  | t :: ts => (c :: t) :: ts
  | [] => [[c]]

def splitWSList : List Char → List (List Char)
  | [] => [[]]
  | [c] => if jsIsSpace c then [[], []] else [[c]]
  | c :: c2 :: cs =>
    if jsIsSpace c then
      (if jsIsSpace c2 then splitWSList (c2 :: cs)
       else [] :: splitWSList (c2 :: cs))
    else consHead c (splitWSList (c2 :: cs))

/-- Model of `str.split(/\s+/)` at the `String` level. -/
def jsSplitWS (s : String) : List String := (splitWSList s.data).map String.mk

/-- Substring test on character lists (model of `String.prototype.includes`). -/
def hasInfixB : List Char → List Char → Bool
  | [], pat => pat.isEmpty
  | c :: t, pat => pat.isPrefixOf (c :: t) || hasInfixB t pat

/-- Model of `s.includes(pat)`. -/
def strIncludes (s pat : String) : Bool := hasInfixB s.data pat.data

/-- Model of `s.startsWith(pre)`. -/
def jsStartsWith (s pre : String) : Bool := pre.data.isPrefixOf s.data

/-- Model of `str.split(sep)` for a one-character separator: split at every
    occurrence, keeping empty pieces. -/
def splitOnCharList (sep : Char) : List Char → List (List Char)
  | [] => [[]]
  | c :: cs =>
    if c = sep then [] :: splitOnCharList sep cs
    else
      match splitOnCharList sep cs with
      | t :: ts => (c :: t) :: ts
      | [] => [[c]]

/-- Model of `str.split(":")`. -/
def jsSplitColon (s : String) : List String :=
  (splitOnCharList ':' s.data).map String.mk

/-- Model of `String.prototype.trim`. -/
def jsTrim (s : String) : String :=
  String.mk (((s.data.dropWhile jsIsSpace).reverse.dropWhile jsIsSpace).reverse)

/-- Model of the `obs.split(":")[1].trim()` idiom used on `"Key: value"`
    observation strings (the piece between the first and second colon,
    trimmed; the sources only apply it to strings that contain a colon). -/
def colonField (s : String) : String :=
  jsTrim ((jsSplitColon s).getD 1 "")

/-- Comma-separated join (model of `array.join(", ")`). -/
def joinComma : List String → String
  | [] => ""
  | [s] => s
  | s :: rest => s ++ ", " ++ joinComma rest

/-! ### Data model (`src/index.ts` interfaces `Entity`, `Relation`,
    `KnowledgeGraph`) -/

/-- Entity record.  `entityType` is kept as a raw string exactly as in the
    JSON document; validity is enforced by `createEntities`. -/
structure Entity where
  name : String
  entityType : String
  observations : List String
deriving DecidableEq, Repr

/-- Relation record.  The TypeScript fields `from`/`to` are keywords in Lean
    and are rendered `from_`/`to_`. -/
structure Relation where
  from_ : String
  to_ : String
  relationType : String
deriving DecidableEq, Repr

/-- Whole persisted graph document. -/
structure KnowledgeGraph where
  entities : List Entity
  relations : List Relation
deriving DecidableEq, Repr

deriving instance DecidableEq for Except

/-- The fixed twelve-member entity-type enumeration (`validEntityTypes`). -/
def validEntityTypes : List String :=
  ["course", "assignment", "exam", "concept", "resource", "note", "lecture",
   "project", "question", "term", "goal", "professor"]

/-- The fixed twenty-member relation-type enumeration
    (`VALID_RELATION_TYPES`). -/
def VALID_RELATION_TYPES : List String :=
  ["enrolled_in", "assigned_in", "due_on", "covers", "references",
   "prerequisite_for", "taught_by", "scheduled_for", "contains", "requires",
   "related_to", "created_for", "studies", "helps_with", "submitted",
   "part_of", "included_in", "follows", "attends", "graded_with"]

/-- Model of `isValidEntityType`. -/
def isValidEntityType (t : String) : Bool := validEntityTypes.contains t

/-! ### Graph store operations (`KnowledgeGraphManager`)

    Each TypeScript method loads the whole graph, works in memory and saves;
    the embedding passes the graph explicitly and a thrown `Error` becomes
    `Except.error` (in which case the file is not rewritten, i.e. the graph
    value is unchanged). -/

/-- Validation loop of `createEntities`: each entity is checked against the
    *original* entity list (the new entities are pushed only after the whole
    loop), first for a name collision, then for a valid entity type. -/
def validateNewEntities (g : KnowledgeGraph) : List Entity → Except String Unit
  | [] => Except.ok ()
  | e :: rest =>
    if g.entities.any (fun x => x.name = e.name) then
      Except.error ("Entity with name " ++ e.name ++ " already exists")
    else if !isValidEntityType e.entityType then
      Except.error ("Invalid entity type: " ++ e.entityType ++
        ". Valid types are: " ++ joinComma validEntityTypes)
    else validateNewEntities g rest

/-- Model of `createEntities`. -/
def createEntities (g : KnowledgeGraph) (es : List Entity) :
    Except String KnowledgeGraph :=
  match validateNewEntities g es with
  | Except.error msg => Except.error msg
  | Except.ok _ =>
    Except.ok { entities := g.entities ++ es, relations := g.relations }

/-- Validation loop of `createRelations`: every relation in the list is
    checked against the *original* graph (endpoint existence, relation type,
    duplicate (from,to,relationType) triple); the relations are pushed only
    after the whole loop. -/
def validateNewRelations (g : KnowledgeGraph) :
    List Relation → Except String Unit
  | [] => Except.ok ()
  | r :: rest =>
    if !g.entities.any (fun e => e.name = r.from_) then
      Except.error ("Entity " ++ r.from_ ++ " not found")
    else if !g.entities.any (fun e => e.name = r.to_) then
      Except.error ("Entity " ++ r.to_ ++ " not found")
    else if !VALID_RELATION_TYPES.contains r.relationType then
      Except.error ("Invalid relation type: " ++ r.relationType ++
        ". Valid types are: " ++ joinComma VALID_RELATION_TYPES)
    else if g.relations.any (fun x =>
        x.from_ = r.from_ && x.to_ = r.to_ &&
        x.relationType = r.relationType) then
      Except.error ("Relation from " ++ r.from_ ++ " to " ++ r.to_ ++
        " with type " ++ r.relationType ++ " already exists")
    else validateNewRelations g rest

/-- Model of `createRelations`. -/
def createRelations (g : KnowledgeGraph) (rs : List Relation) :
    Except String KnowledgeGraph :=
  match validateNewRelations g rs with
  | Except.error msg => Except.error msg
  | Except.ok _ =>
    Except.ok { entities := g.entities, relations := g.relations ++ rs }

/-- Model of `addObservations`. -/
def addObservations (g : KnowledgeGraph) (entityName : String)
    (observations : List String) : Except String KnowledgeGraph :=
  if g.entities.any (fun e => e.name = entityName) then
    Except.ok
      { entities := g.entities.map (fun e =>
          if e.name = entityName then
            { e with observations := e.observations ++ observations }
          else e),
        relations := g.relations }
  else Except.error ("Entity " ++ entityName ++ " not found")

/-- Model of `deleteEntities`: remove matching entities and cascade-remove
    every relation touching a deleted name; absent names are silent no-ops. -/
def deleteEntities (g : KnowledgeGraph) (entityNames : List String) :
    KnowledgeGraph :=
  { entities := g.entities.filter (fun e => !entityNames.contains e.name),
    relations := g.relations.filter (fun r =>
      !entityNames.contains r.from_ && !entityNames.contains r.to_) }

/-- Model of `deleteObservations`. -/
def deleteObservations (g : KnowledgeGraph)
    (deletions : List (String × List String)) : KnowledgeGraph :=
  { entities := g.entities.map (fun e =>
      if deletions.any (fun d => d.1 = e.name) then
        { e with observations := e.observations.filter (fun o =>
            !(deletions.any (fun d => d.1 = e.name && d.2.contains o))) }
      else e),
    relations := g.relations }

/-- Model of `deleteRelations`. -/
def deleteRelations (g : KnowledgeGraph) (rs : List Relation) :
    KnowledgeGraph :=
  { entities := g.entities,
    relations := g.relations.filter (fun r =>
      !rs.any (fun d =>
        r.from_ = d.from_ && r.to_ = d.to_ &&
        r.relationType = d.relationType)) }

/-- Model of `readGraph`. -/
def readGraph (g : KnowledgeGraph) : KnowledgeGraph := g

/-- Matching test of one search term against one entity, exactly as in
    `searchNodes`: the term is a substring of the lowercased name, of the
    lowercased entity-type string, or of at least one lowercased
    observation. -/
def entityMatchesTerm (e : Entity) (term : String) : Bool :=
  strIncludes (jsToLower e.name) term ||
  strIncludes (jsToLower e.entityType) term ||
  e.observations.any (fun o => strIncludes (jsToLower o) term)

/-- Model of `searchNodes`: the query is lowercased and split on `\s+`; an
    entity matches when every term matches it; the result keeps the entities
    whose name is in the matching-name set plus the relations with both
    endpoints in that set. -/
def searchNodes (g : KnowledgeGraph) (query : String) : KnowledgeGraph :=
  let terms := jsSplitWS (jsToLower query)
  let matchingEntityNames :=
    (g.entities.filter (fun e => terms.all (entityMatchesTerm e))).map
      (fun e => e.name)
  { entities := g.entities.filter (fun e =>
      matchingEntityNames.contains e.name),
    relations := g.relations.filter (fun r =>
      matchingEntityNames.contains r.from_ &&
      matchingEntityNames.contains r.to_) }

/-- Model of `openNodes`. -/
def openNodes (g : KnowledgeGraph) (names : List String) : KnowledgeGraph :=
  { entities := g.entities.filter (fun e => names.contains e.name),
    relations := g.relations.filter (fun r =>
      names.contains r.from_ && names.contains r.to_) }

/-! ### Dates

    JavaScript `Date` values are modelled as `Int` milliseconds since the
    Unix epoch; an invalid date (`NaN` timestamp) is `none`, and every
    comparison against it is false, exactly as `NaN` comparisons are.  The
    sources parse dates written in the documented `YYYY-MM-DD` convention,
    which `new Date(...)` reads as UTC midnight; strings not of that shape
    are modelled as invalid. -/

/-- Leap-year test of the proleptic Gregorian calendar. -/
def isLeapYear (y : Int) : Bool :=
  (y % 4 == 0 && y % 100 != 0) || y % 400 == 0

/-- Length of a month. -/
def daysInMonth (y m : Int) : Int :=
  if m = 2 then (if isLeapYear y then 29 else 28)
  else if m = 4 || m = 6 || m = 9 || m = 11 then 30
  else 31

/-- Days from 1970-01-01 to the given civil date (standard
    days-from-civil computation, floor divisions throughout). -/
def daysFromCivil (y m d : Int) : Int :=
  let y' := if m ≤ 2 then y - 1 else y
  let era := Int.fdiv y' 400
  let yoe := y' - era * 400
  let mp := Int.emod (m + 9) 12
  let doy := Int.fdiv (153 * mp + 2) 5 + d - 1
  let doe := yoe * 365 + Int.fdiv yoe 4 - Int.fdiv yoe 100 + doy
  era * 146097 + doe - 719468

/-- Numeric value of a decimal digit character. -/
def digitVal (c : Char) : Option Nat :=
  if 48 ≤ c.val && c.val ≤ 57 then some (c.toNat - 48) else none

/-- Decimal number denoted by a nonempty list of digit characters. -/
def parseDigitsAux : List Char → Nat → Option Nat
  | [], acc => some acc
  | c :: cs, acc =>
    match digitVal c with
    | some v => parseDigitsAux cs (acc * 10 + v)
    | none => none

/-- Decimal number denoted by a list of digit characters (none if empty or
    non-digit). -/
def parseDigits : List Char → Option Nat
  | [] => none
  | l => parseDigitsAux l 0

/-- Model of `new Date(str).getTime()` for the `YYYY-MM-DD` convention:
    UTC midnight of the denoted day, `none` (an Invalid Date) otherwise. -/
def jsParseDate (s : String) : Option Int :=
  match splitOnCharList '-' s.data with
  | [ys, ms, ds] =>
    if ys.length = 4 && ms.length = 2 && ds.length = 2 then
      match parseDigits ys, parseDigits ms, parseDigits ds with
      | some y, some m, some d =>
        if 1 ≤ m && m ≤ 12 && 1 ≤ d &&
            (d : Int) ≤ daysInMonth (y : Int) (m : Int) then
          some (daysFromCivil (y : Int) (m : Int) (d : Int) * 86400000)
        else none
      | _, _, _ => none
    else none
  | _ => none

/-- Ceiling division for a positive divisor (model of
    `Math.ceil(a / b)` on whole numbers). -/
def jsCeilDiv (a b : Int) : Int := -(Int.ediv (-a) b)

/-! ### Upcoming deadlines (`getUpcomingDeadlines`) -/

/-- One element of the `deadlines` array built by `getUpcomingDeadlines`. -/
structure Deadline where
  entity : Entity
  dueDate : Int
  course : Entity
  daysRemaining : Int
deriving DecidableEq, Repr

/-- Result of `getUpcomingDeadlines`.  The presentation-only fields
    (`startDate`/`endDate` ISO strings and the echoed filters) are omitted;
    `count` is kept as in the source (`deadlines.length`). -/
structure DeadlinesResult where
  deadlines : List Deadline
  count : Nat
deriving DecidableEq, Repr

/-- Assignment deadlines of one course: relations `assigned_in` pointing at
    the course, resolved to an assignment entity, with a parsed `Due:`
    observation inside the inclusive window. -/
def assignmentDeadlines (g : KnowledgeGraph) (today endDate : Int)
    (course : Entity) : List Deadline :=
  g.relations.filterMap (fun r =>
    if r.relationType = "assigned_in" && r.to_ = course.name then
      match g.entities.find? (fun e =>
          e.name = r.from_ && e.entityType = "assignment") with
      | some a =>
        match a.observations.find? (fun o => jsStartsWith o "Due:") with
        | some obs =>
          match jsParseDate (colonField obs) with
          | some due =>
            if today ≤ due && due ≤ endDate then
              some ⟨a, due, course, jsCeilDiv (due - today) 86400000⟩
            else none
          | none => none
        | none => none
      | none => none
    else none)

/-- Exam deadlines of one course: relations `scheduled_for` *from* the
    course, resolved to an exam entity, with a parsed `Date:` observation
    inside the inclusive window. -/
def examDeadlines (g : KnowledgeGraph) (today endDate : Int)
    (course : Entity) : List Deadline :=
  g.relations.filterMap (fun r =>
    if r.relationType = "scheduled_for" && r.from_ = course.name then
      match g.entities.find? (fun e =>
          e.name = r.to_ && e.entityType = "exam") with
      | some ex =>
        match ex.observations.find? (fun o => jsStartsWith o "Date:") with
        | some obs =>
          match jsParseDate (colonField obs) with
          | some due =>
            if today ≤ due && due ≤ endDate then
              some ⟨ex, due, course, jsCeilDiv (due - today) 86400000⟩
            else none
          | none => none
        | none => none
      | none => none
    else none)

/-- Term branch of the course collection in `getUpcomingDeadlines`,
    reproduced verbatim from the source: a course is collected from a
    relation `r` only when `r.relationType === "part_of" && r.from ===
    r.to && r.to === termName`; with no term filter, every course entity
    is collected. -/
def relevantCoursesE (g : KnowledgeGraph) (termName : Option String) :
    Except String (List Entity) :=
  match termName with
  | some tn =>
    if g.entities.any (fun e => e.name = tn && e.entityType = "term") then
      Except.ok (g.relations.filterMap (fun r =>
        if r.relationType = "part_of" && r.from_ = r.to_ && r.to_ = tn then
          g.entities.find? (fun e =>
            e.name = r.from_ && e.entityType = "course")
        else none))
    else Except.error ("Term " ++ tn ++ " not found")
  | none => Except.ok (g.entities.filter (fun e => e.entityType = "course"))

/-- Optional course filter of `getUpcomingDeadlines` (not-found when the
    filter empties the list). -/
def courseFilterE (courseName : Option String) (rc0 : List Entity) :
    Except String (List Entity) :=
  match courseName with
  | some cn =>
    if (rc0.filter (fun c => c.name = cn)).isEmpty then
      Except.error ("Course " ++ cn ++ " not found")
    else Except.ok (rc0.filter (fun c => c.name = cn))
  | none => Except.ok rc0

/-- Model of `getUpcomingDeadlines`.  `today` is the `new Date()` call at
    the start of the operation; the end of the window is
    `setDate(getDate() + daysAhead)`, i.e. exactly `daysAhead` civil days
    later (UTC model, no DST); the final sort by due date is the stable
    `insertionSort`. -/
def getUpcomingDeadlines (g : KnowledgeGraph) (termName : Option String)
    (courseName : Option String) (daysAhead : Int) (today : Int) :
    Except String DeadlinesResult :=
  match relevantCoursesE g termName with
  | Except.error msg => Except.error msg
  | Except.ok rc0 =>
    match courseFilterE courseName rc0 with
    | Except.error msg => Except.error msg
    | Except.ok rc =>
      Except.ok
        { deadlines := List.insertionSort
            (fun a b : Deadline => a.dueDate ≤ b.dueDate)
            ((rc.map (fun c =>
              assignmentDeadlines g today (today + daysAhead * 86400000) c ++
              examDeadlines g today (today + daysAhead * 86400000) c)).flatten),
          count := (List.insertionSort
            (fun a b : Deadline => a.dueDate ≤ b.dueDate)
            ((rc.map (fun c =>
              assignmentDeadlines g today (today + daysAhead * 86400000) c ++
              examDeadlines g today (today + daysAhead * 86400000) c)).flatten)).length }

/-! ### Related concepts (`findRelatedConcepts`)

    A breadth-first traversal from a seed concept over `related_to`
    (bidirectional) and `prerequisite_for` (bidirectional) edges with a FIFO
    queue and a processed-name set.  The JavaScript `while` loop is embedded
    with an explicit fuel argument that decreases once per iteration;
    `bfsFuel` below is a provable upper bound on the number of iterations
    (each enqueued name is fresh for the processed set, and all enqueued
    names are relation endpoints), so the `none` (fuel exhausted) branch is
    unreachable — see `bfsLoop_some_of_fuel`. -/

/-- Queue entry of the breadth-first traversal. -/
structure QItem where
  name : String
  currentDepth : Nat
  path : List String
deriving DecidableEq, Repr

/-- One element of the `relatedConcepts` result array. -/
structure RCItem where
  concept : Entity
  relationPath : List String
  depth : Nat
  courses : List Entity
  resources : List Entity
deriving DecidableEq, Repr

/-- Result of `findRelatedConcepts` (the presentation-only `summary` record
    is omitted). -/
structure RelatedConceptsResult where
  concept : Entity
  relatedConcepts : List RCItem
deriving DecidableEq, Repr

/-- Courses that `covers` the named concept. -/
def conceptCourses (g : KnowledgeGraph) (name : String) : List Entity :=
  g.relations.filterMap (fun r =>
    if r.relationType = "covers" && r.to_ = name then
      g.entities.find? (fun e =>
        e.name = r.from_ && e.entityType = "course")
    else none)

/-- Resources that `helps_with` the named concept. -/
def conceptResources (g : KnowledgeGraph) (name : String) : List Entity :=
  g.relations.filterMap (fun r =>
    if r.relationType = "helps_with" && r.to_ = name then
      g.entities.find? (fun e =>
        e.name = r.from_ && e.entityType = "resource")
    else none)

/-- Bidirectional step along one `related_to` relation: the neighbour of
    `name` through `r` with its path description, if any. -/
def relatedNext (name : String) (r : Relation) : Option (String × String) :=
  if r.relationType = "related_to" then
    if r.from_ = name then some (r.to_, "related_to " ++ r.to_)
    else if r.to_ = name then some (r.from_, "related_to " ++ r.from_)
    else none
  else none

/-- Bidirectional step along one `prerequisite_for` relation, tagged with
    the direction in the path description. -/
def prereqNext (name : String) (r : Relation) : Option (String × String) :=
  if r.relationType = "prerequisite_for" then
    if r.from_ = name then some (r.to_, "prerequisite_for " ++ r.to_)
    else if r.to_ = name then
      some (r.from_, r.from_ ++ " is_prerequisite_for this")
    else none
  else none

/-- One relation-scanning loop of the traversal (the source runs it once
    with the `related_to` step and once with the `prerequisite_for` step):
    for each relation in order, when the step yields a neighbour not yet in
    the processed set, the neighbour is added to the set and a queue entry
    at depth `d + 1` is emitted. -/
def expandPass (sel : Relation → Option (String × String)) (d : Nat)
    (path : List String) :
    List Relation → List String → List QItem × List String
  | [], processed => ([], processed)
  | r :: rs, processed =>
    match sel r with
    | some (next, desc) =>
      if processed.contains next then expandPass sel d path rs processed
      else
        (⟨next, d + 1, path ++ [desc]⟩ ::
          (expandPass sel d path rs (processed ++ [next])).1,
         (expandPass sel d path rs (processed ++ [next])).2)
    | none => expandPass sel d path rs processed

/-- Both expansion passes of one dequeued item (`related_to` first, then
    `prerequisite_for`, threading the processed set). -/
def expand (g : KnowledgeGraph) (processed : List String) (name : String)
    (d : Nat) (path : List String) : List QItem × List String :=
  ((expandPass (relatedNext name) d path g.relations processed).1 ++
   (expandPass (prereqNext name) d path g.relations
     (expandPass (relatedNext name) d path g.relations processed).2).1,
   (expandPass (prereqNext name) d path g.relations
     (expandPass (relatedNext name) d path g.relations processed).2).2)

/-- The `while (queue.length > 0)` loop of `findRelatedConcepts`, with fuel.
    A dequeued item beyond the requested depth (other than the seed) is
    skipped; a name that is not a concept entity is skipped; the seed is
    expanded but not reported; every other item is reported and expanded. -/
def bfsLoop (g : KnowledgeGraph) (depth : Nat) (conceptName : String) :
    Nat → List QItem → List String → List RCItem → Option (List RCItem)
  | _, [], _, results => some results
  | 0, _ :: _, _, _ => none
  | fuel + 1, item :: rest, processed, results =>
    if item.currentDepth > depth ∧ item.name ≠ conceptName then
      bfsLoop g depth conceptName fuel rest processed results
    else
      match g.entities.find? (fun e =>
          e.name = item.name && e.entityType = "concept") with
      | none => bfsLoop g depth conceptName fuel rest processed results
      | some c =>
        bfsLoop g depth conceptName fuel
          (rest ++ (expand g processed item.name item.currentDepth
            item.path).1)
          (expand g processed item.name item.currentDepth item.path).2
          (if item.name = conceptName then results
           else results ++ [⟨c, item.path, item.currentDepth,
             conceptCourses g item.name, conceptResources g item.name⟩])

/-- Multiset of relation endpoints; every name the traversal ever enqueues
    after the seed occurs in it. -/
def relationEndpoints (g : KnowledgeGraph) : List String :=
  g.relations.map (fun r => r.from_) ++ g.relations.map (fun r => r.to_)

/-- Fuel bound: one iteration per dequeue, and at most
    `1 + #distinct endpoints` names are ever enqueued. -/
def bfsFuel (g : KnowledgeGraph) : Nat := 1 + 2 * (relationEndpoints g).length

/-- Model of `findRelatedConcepts`.  The final `relatedConcepts.sort((a, b)
    => a.depth - b.depth)` is the stable sort `insertionSort`. -/
def findRelatedConcepts (g : KnowledgeGraph) (conceptName : String)
    (depth : Nat) : Except String RelatedConceptsResult :=
  match g.entities.find? (fun e =>
      e.name = conceptName && e.entityType = "concept") with
  | none => Except.error ("Concept " ++ conceptName ++ " not found")
  | some concept =>
    match bfsLoop g depth conceptName (bfsFuel g)
        [⟨conceptName, 0, []⟩] [conceptName] [] with
    | some results =>
      Except.ok ⟨concept, List.insertionSort
        (fun a b : RCItem => a.depth ≤ b.depth) results⟩
    | none => Except.error "unreachable"

/-! ### Session workflow (`endsession` tool)

    Session state is a second persisted document: a map from session id to an
    ordered list of events, modelled as an association list.  The dynamic
    JavaScript stage payloads (`stageData: Record<string, any>`) are modelled
    by an optional-field record: the dynamic key `concepts` holds plain
    strings in a `conceptsLearned` stage and name/description records in a
    `newConcepts` stage, so it is split into the two typed fields `concepts`
    and `newConcepts`.  `JSON.stringify` followed by `JSON.parse` inside
    `assembleEndSessionArgs`/the assembly step is the identity on this data
    and is not modelled.  Wall-clock reads (`new Date().toISOString()`) are
    passed in as the `nowDate` parameter; the presentation-only
    `summaryMessage` text and the ISO `timestamp` of the completion marker
    are omitted. -/

/-- One reported assignment update (`{ name, status }`). -/
structure AssignmentUpdate where
  name : String
  status : String
deriving DecidableEq, Repr

/-- One brand-new concept definition (`{ name, description }`). -/
structure NewConcept where
  name : String
  description : String
deriving DecidableEq, Repr

/-- Caller-supplied stage payload (all keys optional, as in JavaScript). -/
structure StageData where
  summary : Option String := none
  duration : Option String := none
  course : Option String := none
  concepts : Option (List String) := none
  updates : Option (List AssignmentUpdate) := none
  courseStatus : Option String := none
  courseObservation : Option String := none
  newConcepts : Option (List NewConcept) := none
deriving DecidableEq, Repr

/-- Arguments assembled by `assembleEndSessionArgs` from the accumulated
    stages. -/
structure EndSessionArgs where
  date : String
  summary : String
  duration : String
  course : String
  conceptsLearned : List String
  assignmentUpdates : List AssignmentUpdate
  courseStatus : String
  courseObservation : String
  newConcepts : List NewConcept
deriving DecidableEq, Repr

/-- Payload stored in a stage record: a caller payload for the ordinary
    stages, the assembled arguments for the `assembly` stage. -/
inductive StagePayload where
  | data (d : StageData)
  | assembled (a : EndSessionArgs)
deriving DecidableEq, Repr

/-- Normalized stage result record (`{stage, stageNumber, analysis,
    stageData, completed}`). -/
structure StageRecord where
  stage : String
  stageNumber : Nat
  analysis : String
  stageData : StagePayload
  completed : Bool
deriving DecidableEq, Repr

/-- One event of a session's persisted record. -/
inductive SessionEvent where
  | analysisStage (r : StageRecord)
  | sessionCompleted (date summary course : String)
deriving DecidableEq, Repr

/-- The session-state document: session id to event list. -/
abbrev SessionStates := List (String × List SessionEvent)

/-- Lookup in the session-state map (`sessionStates.get`). -/
def lookupSession (states : SessionStates) (id : String) :
    Option (List SessionEvent) :=
  (List.find? (fun p => p.1 = id) states).map (fun p => p.2)

/-- Update in the session-state map (`sessionStates.set`). -/
def setSession (states : SessionStates) (id : String)
    (v : List SessionEvent) : SessionStates :=
  if (List.find? (fun p => p.1 = id) states).isSome then
    List.map (fun p => if p.1 = id then (id, v) else p) states
  else states ++ [(id, v)]

/-- Parameters of one `endsession` call (after zod validation,
    which guarantees `revisesStage`, when present, is positive). -/
structure EndSessionParams where
  sessionId : String
  stage : String
  stageNumber : Nat
  totalStages : Nat
  analysis : Option String := none
  stageData : Option StageData := none
  nextStageNeeded : Bool
  isRevision : Option Bool := none
  revisesStage : Option Nat := none
deriving DecidableEq, Repr

/-- Test for an `analysis_stage` event. -/
def isAnalysisStage : SessionEvent → Bool
  | SessionEvent.analysisStage _ => true
  | _ => false

/-- The stage record named `name` among the accumulated events, if any
    (`stages.find(s => s.stage === name)`; completion markers carry no
    stage name and never match). -/
def findStage (stages : List SessionEvent) (name : String) :
    Option StageRecord :=
  (List.find? (fun ev =>
    match ev with
    | SessionEvent.analysisStage r => r.stage = name
    | _ => false) stages).bind (fun ev =>
      match ev with
      | SessionEvent.analysisStage r => some r
      | _ => none)

/-- Caller payload of the stage named `name`, if that stage was recorded
    with one. -/
def stageDataOf (stages : List SessionEvent) (name : String) :
    Option StageData :=
  (findStage stages name).bind (fun r =>
    match r.stageData with
    | StagePayload.data d => some d
    | StagePayload.assembled _ => none)

/-- Model of `assembleEndSessionArgs`: reduce the accumulated stages into
    one argument record, defaulting every missing piece (`|| ""`,
    `|| "unknown"`, `|| []`). `nowDate` models
    `new Date().toISOString().split("T")[0]`. -/
def assembleEndSessionArgs (stages : List SessionEvent) (nowDate : String) :
    EndSessionArgs :=
  { date := nowDate,
    summary := ((stageDataOf stages "summary").bind
      (fun d => d.summary)).getD "",
    duration := ((stageDataOf stages "summary").bind
      (fun d => d.duration)).getD "unknown",
    course := ((stageDataOf stages "summary").bind
      (fun d => d.course)).getD "",
    conceptsLearned := ((stageDataOf stages "conceptsLearned").bind
      (fun d => d.concepts)).getD [],
    assignmentUpdates := ((stageDataOf stages "assignmentUpdates").bind
      (fun d => d.updates)).getD [],
    courseStatus := ((stageDataOf stages "courseStatus").bind
      (fun d => d.courseStatus)).getD "",
    courseObservation := ((stageDataOf stages "courseStatus").bind
      (fun d => d.courseObservation)).getD "",
    newConcepts := ((stageDataOf stages "newConcepts").bind
      (fun d => d.newConcepts)).getD [] }

/-- Model of `processStage`: normalize the call into a stage record, with a
    stage-specific default payload; the `assembly` stage compiles the
    accumulated arguments; an unknown stage name throws. -/
def processStage (p : EndSessionParams)
    (previousStages : List SessionEvent) (nowDate : String) :
    Except String StageRecord :=
  if p.stage = "summary" then
    Except.ok ⟨"summary", p.stageNumber, p.analysis.getD "",
      StagePayload.data (p.stageData.getD
        { summary := some "", duration := some "", course := some "" }),
      !p.nextStageNeeded⟩
  else if p.stage = "conceptsLearned" then
    Except.ok ⟨"conceptsLearned", p.stageNumber, p.analysis.getD "",
      StagePayload.data (p.stageData.getD { concepts := some [] }),
      !p.nextStageNeeded⟩
  else if p.stage = "assignmentUpdates" then
    Except.ok ⟨"assignmentUpdates", p.stageNumber, p.analysis.getD "",
      StagePayload.data (p.stageData.getD { updates := some [] }),
      !p.nextStageNeeded⟩
  else if p.stage = "newConcepts" then
    Except.ok ⟨"newConcepts", p.stageNumber, p.analysis.getD "",
      StagePayload.data (p.stageData.getD { newConcepts := some [] }),
      !p.nextStageNeeded⟩
  else if p.stage = "courseStatus" then
    Except.ok ⟨"courseStatus", p.stageNumber, p.analysis.getD "",
      StagePayload.data (p.stageData.getD
        { courseStatus := some "", courseObservation := some "" }),
      !p.nextStageNeeded⟩
  else if p.stage = "assembly" then
    Except.ok ⟨"assembly", p.stageNumber,
      "Final assembly of end-session arguments",
      StagePayload.assembled (assembleEndSessionArgs previousStages nowDate),
      true⟩
  else Except.error ("Unknown stage: " ++ p.stage)

/-- Store-update step of `endsession`: append the new stage record, or — on
    a revision — replace the `revisesStage`-th analysis record, moving the
    non-analysis events in front exactly as the source's
    `[...filter(non-analysis), ...analysisStages]` does. -/
def updateSessionState (p : EndSessionParams) (state : List SessionEvent)
    (r : StageRecord) : List SessionEvent :=
  if p.isRevision.getD false && p.revisesStage.isSome then
    let k := p.revisesStage.getD 1
    let analysis := state.filter isAnalysisStage
    let analysis' :=
      if k ≤ analysis.length then
        analysis.set (k - 1) (SessionEvent.analysisStage r)
      else analysis ++ [SessionEvent.analysisStage r]
    state.filter (fun e => !isAnalysisStage e) ++ analysis'
  else state ++ [SessionEvent.analysisStage r]

/-! Assembly application.  Each sub-step persists independently, so a step
    carries the graph state along with an optional error: on the first
    thrown error, the remaining steps are skipped but earlier mutations are
    kept. -/

/-- Sequencing of assembly sub-steps: stop at the first error, keeping the
    graph mutated so far. -/
def andThenStep (r : KnowledgeGraph × Option String)
    (f : KnowledgeGraph → KnowledgeGraph × Option String) :
    KnowledgeGraph × Option String :=
  match r.2 with
  | some _ => r
  | none => f r.1

/-- Outcome of one fallible store call starting from graph `g`: on error the
    store was not rewritten. -/
def liftStep (g : KnowledgeGraph) (e : Except String KnowledgeGraph) :
    KnowledgeGraph × Option String :=
  match e with
  | Except.ok g' => (g', none)
  | Except.error m => (g, some m)

/-- Model of the dash-stripping `date.replace` call (global dash regex). -/
def stripDashes (s : String) : String :=
  String.mk (s.data.filter (fun c => c ≠ '-'))

/-- Concept entities created for the concepts-learned list, named from the
    session date and 1-based index. -/
def conceptLearnedEntities (args : EndSessionArgs) : List Entity :=
  args.conceptsLearned.mapIdx (fun i c =>
    ⟨"Concept_" ++ stripDashes args.date ++ "_" ++ Nat.repr (i + 1),
     "concept", [c]⟩)

/-- Assembly step 2: create one concept entity per concept learned and link
    each to the course via `contains`. -/
def assemblyStep2 (args : EndSessionArgs) (g : KnowledgeGraph) :
    KnowledgeGraph × Option String :=
  let ces := conceptLearnedEntities args
  if ces.length > 0 then
    andThenStep (liftStep g (createEntities g ces)) (fun g1 =>
      liftStep g1 (createRelations g1 (ces.map (fun c =>
        ⟨args.course, c.name, "contains"⟩))))
  else (g, none)

/-- Assembly step 3, one update: look the assignment up through
    `searchNodes("name:" + name)` — reproduced verbatim from the source —
    and, when an entity is found, rebuild its observation list with the new
    `status:` value and replace the entity by delete-then-recreate; a
    `completed` status additionally links course to assignment via
    `created_for`.  When the search finds nothing the update is silently
    skipped. -/
def assignmentUpdateStep (course : String) (u : AssignmentUpdate)
    (g : KnowledgeGraph) : KnowledgeGraph × Option String :=
  match (searchNodes g ("name:" ++ u.name)).entities with
  | [] => (g, none)
  | e :: _ =>
    let obs := (e.observations.filter (fun o =>
      !jsStartsWith o "status:")) ++ ["status:" ++ u.status]
    let g1 := deleteEntities g [u.name]
    andThenStep (liftStep g1 (createEntities g1 [⟨u.name, "assignment", obs⟩]))
      (fun g2 =>
        if u.status = "completed" then
          liftStep g2 (createRelations g2 [⟨course, u.name, "created_for"⟩])
        else (g2, none))

/-- Assembly step 3: apply the reported assignment updates in order. -/
def assemblyStep3 (course : String) :
    List AssignmentUpdate → KnowledgeGraph → KnowledgeGraph × Option String
  | [], g => (g, none)
  | u :: rest, g =>
    andThenStep (assignmentUpdateStep course u g) (assemblyStep3 course rest)

/-- Assembly step 4: replace the course entity's `status:`/`updated:`
    observations (same `searchNodes("name:" + course)` lookup and
    delete-then-recreate), optionally appending a free-text observation
    (pushed only when non-empty — JavaScript truthiness). -/
def assemblyStep4 (args : EndSessionArgs) (g : KnowledgeGraph) :
    KnowledgeGraph × Option String :=
  match (searchNodes g ("name:" ++ args.course)).entities with
  | [] => (g, none)
  | e :: _ =>
    let obs := (e.observations.filter (fun o =>
        !jsStartsWith o "status:" && !jsStartsWith o "updated:")) ++
      ["status:" ++ args.courseStatus, "updated:" ++ args.date] ++
      (if args.courseObservation ≠ "" then [args.courseObservation] else [])
    let g1 := deleteEntities g [args.course]
    liftStep g1 (createEntities g1 [⟨args.course, "course", obs⟩])

/-- Assembly step 5: create the brand-new concept entities (description plus
    a `last_studied:` observation) and link each to the course. -/
def assemblyStep5 (args : EndSessionArgs) (g : KnowledgeGraph) :
    KnowledgeGraph × Option String :=
  if args.newConcepts.length > 0 then
    let es := args.newConcepts.map (fun c =>
      (⟨c.name, "concept", [c.description, "last_studied:" ++ args.date]⟩ :
        Entity))
    andThenStep (liftStep g (createEntities g es)) (fun g1 =>
      liftStep g1 (createRelations g1 (es.map (fun c =>
        ⟨args.course, c.name, "contains"⟩))))
  else (g, none)

/-- The whole assembly reduction applied to the graph store (steps 2-5 of
    §4.3); the first error aborts the remaining steps without rolling back
    earlier ones. -/
def runAssembly (args : EndSessionArgs) (g : KnowledgeGraph) :
    KnowledgeGraph × Option String :=
  andThenStep (assemblyStep2 args g) (fun g1 =>
    andThenStep (assemblyStep3 args.course args.assignmentUpdates g1)
      (fun g2 => andThenStep (assemblyStep4 args g2) (assemblyStep5 args)))

/-- Result envelope of one `endsession` call (the JSON text envelope is
    modelled as an inductive). -/
inductive EndSessionResult where
  | sessionNotFound (id : String)
  | failure (msg : String)
  | assemblyError (msg : String)
  | recorded
  | intermediate (stageCompleted : String) (nextStageNeeded : Bool)
deriving DecidableEq, Repr

/-- Model of the `endsession` tool handler: validate the session id (an
    unknown id is rejected before anything is touched), process the stage,
    persist the updated session state, and — on a terminal `assembly` stage
    — apply the assembled mutations to the graph and append the
    `session_completed` marker. -/
def endsession (p : EndSessionParams) (states : SessionStates)
    (g : KnowledgeGraph) (nowDate : String) :
    EndSessionResult × SessionStates × KnowledgeGraph :=
  match lookupSession states p.sessionId with
  | none => (EndSessionResult.sessionNotFound p.sessionId, states, g)
  | some sessionState =>
    match processStage p sessionState nowDate with
    | Except.error msg => (EndSessionResult.failure msg, states, g)
    | Except.ok r =>
      let newState := updateSessionState p sessionState r
      let states1 := setSession states p.sessionId newState
      if p.stage = "assembly" ∧ p.nextStageNeeded = false then
        match r.stageData with
        | StagePayload.assembled args =>
          let out := runAssembly args g
          match out.2 with
          | some msg => (EndSessionResult.assemblyError msg, states1, out.1)
          | none =>
            let newState2 := newState ++
              [SessionEvent.sessionCompleted args.date args.summary
                args.course]
            (EndSessionResult.recorded,
             setSession states1 p.sessionId newState2, out.1)
        | StagePayload.data _ =>
          -- Unreachable: `processStage` gives the assembly stage an
          -- assembled payload.
          (EndSessionResult.failure "unreachable", states1, g)
      else (EndSessionResult.intermediate p.stage p.nextStageNeeded,
        states1, g)

/-- Name-uniqueness invariant of the store (§3 of the documentation). -/
def NodupNames (g : KnowledgeGraph) : Prop :=
  (g.entities.map (fun e => e.name)).Nodup

instance (g : KnowledgeGraph) : Decidable (NodupNames g) := by
  unfold NodupNames; infer_instance

/-! ## Supporting lemmas -/

theorem hasInfixB_iff (l pat : List Char) :
    hasInfixB l pat = true ↔ pat <:+: l := by
  induction l with
  | nil => simp [hasInfixB, List.isEmpty_iff, List.infix_nil]
  | cons c t ih =>
    simp [hasInfixB, List.infix_cons_iff, List.isPrefixOf_iff_prefix, ih]

theorem strIncludes_iff (s pat : String) :
    strIncludes s pat = true ↔ pat.data <:+: s.data :=
  hasInfixB_iff _ _

theorem strIncludes_empty (s : String) : strIncludes s "" = true := by
  rw [strIncludes_iff]
  exact List.nil_infix

/-! ## C9: deleteEntities removes exactly the named entities and cascades
    to incident relations -/

/-- C9: `deleteEntities` removes exactly the entities whose name is listed
    and every relation with a listed endpoint, silently ignoring absent
    names (it is total); in particular after `deleteEntities ["A"]` a
    `readGraph` shows no entity named `A` and no relation touching `A`. -/
theorem deleteEntities_spec (g : KnowledgeGraph) (names : List String)
    (e : Entity) (r : Relation) :
    (e ∈ (readGraph (deleteEntities g names)).entities ↔
      e ∈ g.entities ∧ e.name ∉ names) ∧
    (r ∈ (readGraph (deleteEntities g names)).relations ↔
      r ∈ g.relations ∧ r.from_ ∉ names ∧ r.to_ ∉ names) ∧
    (¬ ∃ e' ∈ (readGraph (deleteEntities g ["A"])).entities,
      e'.name = "A") ∧
    (¬ ∃ r' ∈ (readGraph (deleteEntities g ["A"])).relations,
      r'.from_ = "A" ∨ r'.to_ = "A") := by
  refine ⟨?_, ?_, ?_, ?_⟩ <;>
    simp [readGraph, deleteEntities, List.mem_filter, List.contains,
      List.elem_iff, and_assoc] <;>
    aesop

/-- Witness for C9 at a concrete graph, deletion list, entity and
    relation. -/
theorem deleteEntities_spec_witness :
    ((⟨"A", "concept", []⟩ : Entity) ∈
        (readGraph (deleteEntities ⟨[⟨"A", "concept", []⟩], []⟩ ["A"])).entities ↔
      (⟨"A", "concept", []⟩ : Entity) ∈
        (⟨[⟨"A", "concept", []⟩], []⟩ : KnowledgeGraph).entities ∧
      "A" ∉ ["A"]) :=
  (deleteEntities_spec ⟨[⟨"A", "concept", []⟩], []⟩ ["A"]
    ⟨"A", "concept", []⟩ ⟨"A", "A", "related_to"⟩).1

/-! ## C5: name uniqueness under the mutating operations -/

/-- Duplicate-input entity used by the C5 counterexample. -/
def dupEntity : Entity := ⟨"A", "concept", []⟩

/-- Empty store. -/
def emptyGraph : KnowledgeGraph := ⟨[], []⟩

/-- C5 counterexample: `createEntities` checks each input name only against
    the *pre-existing* entities, so a list that repeats a fresh name
    succeeds and leaves two entities with the same name in the store. -/
theorem createEntities_dup_cex :
    NodupNames emptyGraph ∧
    createEntities emptyGraph [dupEntity, dupEntity] =
      Except.ok ⟨[dupEntity, dupEntity], []⟩ ∧
    ¬ NodupNames (⟨[dupEntity, dupEntity], []⟩ : KnowledgeGraph) := by
  decide

theorem validateNewEntities_ok (g : KnowledgeGraph) :
    ∀ es : List Entity, validateNewEntities g es = Except.ok () →
    ∀ e ∈ es, (∀ x ∈ g.entities, x.name ≠ e.name) ∧
      isValidEntityType e.entityType = true := by
  intro es
  induction es with
  | nil => simp
  | cons e rest ih =>
    intro h
    unfold validateNewEntities at h
    split at h
    · exact absurd h (by simp)
    · split at h
      · exact absurd h (by simp)
      · intro x hx
        rcases List.mem_cons.mp hx with hx | hx
        · subst hx
          constructor
          · intro y hy hne
            rename_i hany _
            exact hany (List.any_eq_true.mpr ⟨y, hy, by simp [hne]⟩)
          · rename_i hval
            simpa using hval
        · exact ih h x hx

theorem nodupNames_map (g : KnowledgeGraph) (f : Entity → Entity)
    (rels : List Relation) (hf : ∀ e, (f e).name = e.name)
    (hg : NodupNames g) : NodupNames ⟨g.entities.map f, rels⟩ := by
  unfold NodupNames at hg ⊢
  rw [List.map_map]
  have hcomp : ((fun e : Entity => e.name) ∘ f) = fun e : Entity => e.name :=
    funext fun e => hf e
  rw [hcomp]
  exact hg

/-- C5 (amended): every mutating store operation preserves name
    uniqueness, with `createEntities` additionally requiring the *input
    list itself* to carry pairwise-distinct names (the source never checks
    the inputs against each other — see `createEntities_dup_cex`). -/
theorem graphOps_preserve_uniqueness :
    (∀ (g : KnowledgeGraph) (es : List Entity) (g' : KnowledgeGraph),
      NodupNames g → (es.map Entity.name).Nodup →
      createEntities g es = Except.ok g' → NodupNames g') ∧
    (∀ (g : KnowledgeGraph) (rs : List Relation) (g' : KnowledgeGraph),
      NodupNames g → createRelations g rs = Except.ok g' → NodupNames g') ∧
    (∀ (g : KnowledgeGraph) (n : String) (obs : List String)
      (g' : KnowledgeGraph),
      NodupNames g → addObservations g n obs = Except.ok g' →
      NodupNames g') ∧
    (∀ (g : KnowledgeGraph) (ns : List String),
      NodupNames g → NodupNames (deleteEntities g ns)) ∧
    (∀ (g : KnowledgeGraph) (ds : List (String × List String)),
      NodupNames g → NodupNames (deleteObservations g ds)) ∧
    (∀ (g : KnowledgeGraph) (rs : List Relation),
      NodupNames g → NodupNames (deleteRelations g rs)) := by
  refine ⟨?_, ?_, ?_, ?_, ?_, ?_⟩
  · intro g es g' hg hes h
    unfold createEntities at h
    split at h
    · exact absurd h (by simp)
    · rename_i hv
      cases h
      have hfresh := validateNewEntities_ok g es hv
      unfold NodupNames at hg ⊢
      simp only [List.map_append]
      rw [List.nodup_append]
      refine ⟨hg, hes, ?_⟩
      intro a ha hb
      simp only [List.mem_map] at ha hb
      obtain ⟨x, hx, rfl⟩ := ha
      obtain ⟨y, hy, hxy⟩ := hb
      exact (hfresh y hy).1 x hx hxy.symm
  · intro g rs g' hg h
    unfold createRelations at h
    split at h
    · exact absurd h (by simp)
    · cases h; exact hg
  · intro g n obs g' hg h
    unfold addObservations at h
    split at h
    · cases h
      exact nodupNames_map g _ _
        (fun e => by by_cases hx : e.name = n <;> simp [hx]) hg
    · exact absurd h (by simp)
  · intro g ns hg
    exact ((List.filter_sublist _).map Entity.name).nodup hg
  · intro g ds hg
    unfold deleteObservations
    exact nodupNames_map g _ _
      (fun e => by
        by_cases hx : ds.any (fun d => d.1 = e.name) <;> simp [hx]) hg
  · intro g rs hg
    exact hg

/-- Witness for the amended C5 theorem at concrete inputs. -/
theorem graphOps_preserve_uniqueness_witness :
    NodupNames (deleteEntities ⟨[dupEntity], []⟩ ["A"]) ∧
    NodupNames emptyGraph := by
  exact ⟨graphOps_preserve_uniqueness.2.2.2.1 ⟨[dupEntity], []⟩ ["A"]
    (by decide), by decide⟩

/-! ## C8: createRelations validation -/

/-- Rejection condition of `createRelations` for one listed relation:
    a missing endpoint entity, a relation type outside the enumeration, or
    a (from, to, relationType) triple already present in the store. -/
def badRelation (g : KnowledgeGraph) (r : Relation) : Prop :=
  (¬ ∃ e ∈ g.entities, e.name = r.from_) ∨
  (¬ ∃ e ∈ g.entities, e.name = r.to_) ∨
  r.relationType ∉ VALID_RELATION_TYPES ∨
  (∃ x ∈ g.relations, x.from_ = r.from_ ∧ x.to_ = r.to_ ∧
    x.relationType = r.relationType)

instance (g : KnowledgeGraph) (r : Relation) : Decidable (badRelation g r) := by
  unfold badRelation; infer_instance

theorem validateNewRelations_ok_iff (g : KnowledgeGraph) :
    ∀ rs : List Relation,
    (validateNewRelations g rs = Except.ok () ↔
      ∀ r ∈ rs, ¬ badRelation g r) := by
  intro rs
  induction rs with
  | nil => simp [validateNewRelations]
  | cons r rest ih =>
    unfold validateNewRelations
    cases h1 : g.entities.any (fun e => e.name = r.from_) with
    | false =>
      have hbad : badRelation g r := by
        unfold badRelation
        refine Or.inl ?_
        simpa [List.any_eq_true] using h1
      simp [h1, List.forall_mem_cons, hbad]
    | true =>
      cases h2 : g.entities.any (fun e => e.name = r.to_) with
      | false =>
        have hbad : badRelation g r := by
          unfold badRelation
          refine Or.inr (Or.inl ?_)
          simpa [List.any_eq_true] using h2
        simp [h1, h2, List.forall_mem_cons, hbad]
      | true =>
        cases h3 : VALID_RELATION_TYPES.contains r.relationType with
        | false =>
          have hbad : badRelation g r := by
            unfold badRelation
            refine Or.inr (Or.inr (Or.inl ?_))
            simpa [List.contains, List.elem_iff] using h3
          simp [h1, h2, h3, List.forall_mem_cons, hbad]
        | true =>
          cases h4 : g.relations.any (fun x =>
              x.from_ = r.from_ && x.to_ = r.to_ &&
              x.relationType = r.relationType) with
          | true =>
            have hbad : badRelation g r := by
              unfold badRelation
              refine Or.inr (Or.inr (Or.inr ?_))
              simp only [List.any_eq_true, Bool.and_eq_true,
                decide_eq_true_eq] at h4
              obtain ⟨x, hx, ⟨ha, hb⟩, hc⟩ := h4
              exact ⟨x, hx, ha, hb, hc⟩
            simp [h1, h2, h3, h4, List.forall_mem_cons, hbad]
          | false =>
            have hgood : ¬ badRelation g r := by
              unfold badRelation
              push_neg
              simp only [List.any_eq_true, decide_eq_true_eq] at h1 h2
              refine ⟨h1, h2, ?_, ?_⟩
              · simpa [List.contains, List.elem_iff] using h3
              · intro x hx ha hb hc
                have : g.relations.any (fun x =>
                    x.from_ = r.from_ && x.to_ = r.to_ &&
                    x.relationType = r.relationType) = true :=
                  List.any_eq_true.mpr ⟨x, hx, by simp [ha, hb, hc]⟩
                rw [this] at h4
                exact Bool.noConfusion h4
            simp [h1, h2, h3, h4, ih, List.forall_mem_cons, hgood]

/-- C8: `createRelations` fails — appending nothing — exactly when some
    listed relation has an absent endpoint, an invalid type, or duplicates
    a stored triple; otherwise it appends the whole list. -/
theorem createRelations_spec (g : KnowledgeGraph) (rs : List Relation) :
    ((∃ r ∈ rs, badRelation g r) →
      ∃ msg, createRelations g rs = Except.error msg) ∧
    ((∀ r ∈ rs, ¬ badRelation g r) →
      createRelations g rs = Except.ok ⟨g.entities, g.relations ++ rs⟩) := by
  constructor
  · intro hbad
    cases hv : validateNewRelations g rs with
    | error m => exact ⟨m, by simp [createRelations, hv]⟩
    | ok u =>
      cases u
      rw [validateNewRelations_ok_iff] at hv
      obtain ⟨r, hr, hb⟩ := hbad
      exact absurd hb (hv r hr)
  · intro hgood
    rw [← validateNewRelations_ok_iff] at hgood
    simp [createRelations, hgood]

/-! ## C6 and C10: searchNodes -/

/-- Matching of one lowercased search term against one entity, stated at
    the specification level: the term is a substring of the lowercased
    name, the lowercased entity-type string, or at least one lowercased
    observation. -/
def termMatchesProp (e : Entity) (t : String) : Prop :=
  t.data <:+: (jsToLower e.name).data ∨
  t.data <:+: (jsToLower e.entityType).data ∨
  ∃ o ∈ e.observations, t.data <:+: (jsToLower o).data

instance (e : Entity) (t : String) : Decidable (termMatchesProp e t) := by
  unfold termMatchesProp; infer_instance

theorem entityMatchesTerm_iff (e : Entity) (t : String) :
    entityMatchesTerm e t = true ↔ termMatchesProp e t := by
  unfold entityMatchesTerm termMatchesProp
  simp [strIncludes_iff, List.any_eq_true]
  tauto

theorem matchingNames_mem (g : KnowledgeGraph) (terms : List String)
    (x : String) :
    (x ∈ (g.entities.filter (fun e =>
        terms.all (entityMatchesTerm e))).map (fun e => e.name)) ↔
      ∃ e' ∈ g.entities, e'.name = x ∧
        ∀ t ∈ terms, termMatchesProp e' t := by
  simp only [List.mem_map, List.mem_filter, List.all_eq_true,
    entityMatchesTerm_iff]
  aesop

/-- C6: `searchNodes` splits the lowercased query on whitespace and returns
    exactly the entities matched by every term (each term may hit the name,
    the type string, or any observation), plus exactly the relations whose
    two endpoints both name matching entities. -/
theorem searchNodes_spec (g : KnowledgeGraph) (q : String) (e : Entity)
    (r : Relation) (hnd : NodupNames g) :
    (e ∈ (searchNodes g q).entities ↔
      e ∈ g.entities ∧
      ∀ t ∈ jsSplitWS (jsToLower q), termMatchesProp e t) ∧
    (r ∈ (searchNodes g q).relations ↔
      r ∈ g.relations ∧
      (∃ ef ∈ g.entities, ef.name = r.from_ ∧
        ∀ t ∈ jsSplitWS (jsToLower q), termMatchesProp ef t) ∧
      (∃ et ∈ g.entities, et.name = r.to_ ∧
        ∀ t ∈ jsSplitWS (jsToLower q), termMatchesProp et t)) := by
  constructor
  · simp only [searchNodes, List.mem_filter, List.contains, List.elem_iff,
      matchingNames_mem, and_congr_right_iff]
    intro he
    constructor
    · rintro ⟨e', he', hname, hmatch⟩
      have : e' = e := List.inj_on_of_nodup_map hnd he' he hname
      subst this
      exact hmatch
    · intro hmatch
      exact ⟨e, he, rfl, hmatch⟩
  · simp only [searchNodes, List.mem_filter, Bool.and_eq_true, List.contains,
      List.elem_iff, matchingNames_mem, and_assoc]

theorem toLower_of_space (c : Char) (h : jsIsSpace c = true) :
    Char.toLower c = c := by
  unfold jsIsSpace at h
  simp only [Bool.or_eq_true, Nat.beq_eq_true_eq, Bool.and_eq_true,
    decide_eq_true_eq] at h
  have hno : ¬(c.toNat ≥ 65 ∧ c.toNat ≤ 90) := by omega
  simp [Char.toLower, hno]

theorem jsIsSpace_toLower (c : Char) (h : jsIsSpace c = true) :
    jsIsSpace (Char.toLower c) = true := by
  rw [toLower_of_space c h]; exact h

theorem splitWSList_all_empty :
    ∀ l : List Char, (∀ c ∈ l, jsIsSpace c = true) →
    ∀ t ∈ splitWSList l, t = [] := by
  intro l
  induction l with
  | nil =>
    intro _ t ht
    simpa [splitWSList] using ht
  | cons c cs ih =>
    intro h t ht
    have hc : jsIsSpace c = true := h c (by simp)
    cases cs with
    | nil =>
      simp only [splitWSList, hc, if_true] at ht
      simp only [List.mem_cons, List.not_mem_nil, or_false] at ht
      rcases ht with ht | ht <;> exact ht
    | cons c2 cs2 =>
      have hc2 : jsIsSpace c2 = true := h c2 (by simp)
      simp only [splitWSList, hc, hc2, if_true] at ht
      exact ih (fun x hx => h x (by simp [hx])) t ht

theorem jsSplitWS_blank (q : String) (h : ∀ c ∈ q.data, jsIsSpace c = true) :
    ∀ t ∈ jsSplitWS (jsToLower q), t = "" := by
  intro t ht
  simp only [jsSplitWS, jsToLower, List.mem_map] at ht
  obtain ⟨tl, htl, rfl⟩ := ht
  have htl0 : tl = [] := by
    refine splitWSList_all_empty _ ?_ tl htl
    intro c hc
    simp only [List.mem_map] at hc
    obtain ⟨c0, hc0, rfl⟩ := hc
    exact jsIsSpace_toLower c0 (h c0 hc0)
  subst htl0
  rfl

theorem entityMatchesTerm_empty (e : Entity) :
    entityMatchesTerm e "" = true := by
  simp [entityMatchesTerm, strIncludes_empty]

/-- C10: on an empty or all-whitespace query every split term is the empty
    string, which is a substring of everything, so `searchNodes` keeps
    every entity, keeps exactly the relations whose endpoints both name
    stored entities, and returns the whole graph whenever the
    endpoint-existence invariant holds. -/
theorem searchNodes_blank_query (g : KnowledgeGraph) (q : String)
    (hws : ∀ c ∈ q.data, jsIsSpace c = true) :
    (searchNodes g q).entities = g.entities ∧
    (searchNodes g q).relations = g.relations.filter (fun r =>
      (g.entities.map (fun e => e.name)).contains r.from_ &&
      (g.entities.map (fun e => e.name)).contains r.to_) ∧
    ((∀ r ∈ g.relations,
        (∃ e ∈ g.entities, e.name = r.from_) ∧
        (∃ e ∈ g.entities, e.name = r.to_)) →
      searchNodes g q = g) := by
  have hall : g.entities.filter (fun e =>
      (jsSplitWS (jsToLower q)).all (entityMatchesTerm e)) = g.entities := by
    refine List.filter_eq_self.mpr (fun e _ => List.all_eq_true.mpr ?_)
    intro t ht
    rw [jsSplitWS_blank q hws t ht]
    exact entityMatchesTerm_empty e
  have hent : (searchNodes g q).entities = g.entities := by
    simp only [searchNodes, hall]
    refine List.filter_eq_self.mpr (fun e he => ?_)
    simp only [List.contains, List.elem_iff, List.mem_map]
    exact ⟨e, he, rfl⟩
  have hrel : (searchNodes g q).relations = g.relations.filter (fun r =>
      (g.entities.map (fun e => e.name)).contains r.from_ &&
      (g.entities.map (fun e => e.name)).contains r.to_) := by
    simp only [searchNodes, hall]
  refine ⟨hent, hrel, ?_⟩
  intro hinv
  have hrel2 : (searchNodes g q).relations = g.relations := by
    rw [hrel]
    refine List.filter_eq_self.mpr (fun r hr => ?_)
    obtain ⟨⟨ef, hef, hefn⟩, ⟨et, het, hetn⟩⟩ := hinv r hr
    simp only [Bool.and_eq_true, List.contains, List.elem_iff, List.mem_map]
    exact ⟨⟨ef, hef, hefn⟩, ⟨et, het, hetn⟩⟩
  calc searchNodes g q
      = ⟨(searchNodes g q).entities, (searchNodes g q).relations⟩ := rfl
    _ = ⟨g.entities, g.relations⟩ := by rw [hent, hrel2]
    _ = g := rfl

/-- Witness graph for C6. -/
def gC6 : KnowledgeGraph :=
  ⟨[⟨"Physics Final", "exam", ["Date: 2025-12-01"]⟩,
    ⟨"Physics 101", "course", []⟩],
   [⟨"Physics Final", "Physics 101", "scheduled_for"⟩]⟩

/-- Witness for C6 at a concrete graph, query, entity and relation. -/
theorem searchNodes_spec_witness :
    NodupNames gC6 ∧
    ((⟨"Physics Final", "exam", ["Date: 2025-12-01"]⟩ : Entity) ∈
        (searchNodes gC6 "physics exam").entities ↔
      (⟨"Physics Final", "exam", ["Date: 2025-12-01"]⟩ : Entity) ∈
        gC6.entities ∧
      ∀ t ∈ jsSplitWS (jsToLower "physics exam"),
        termMatchesProp ⟨"Physics Final", "exam", ["Date: 2025-12-01"]⟩ t) :=
  ⟨by decide,
   (searchNodes_spec gC6 "physics exam"
     ⟨"Physics Final", "exam", ["Date: 2025-12-01"]⟩
     ⟨"Physics Final", "Physics 101", "scheduled_for"⟩ (by decide)).1⟩

/-- Witness graph for C10 (one dangling relation endpoint). -/
def gC10 : KnowledgeGraph :=
  ⟨[⟨"A", "concept", []⟩, ⟨"B", "concept", []⟩],
   [⟨"A", "B", "related_to"⟩, ⟨"A", "Ghost", "related_to"⟩]⟩

/-- Witness for C10: the all-whitespace query returns every entity and
    drops exactly the dangling relation. -/
theorem searchNodes_blank_query_witness :
    (searchNodes gC10 " ").entities = gC10.entities ∧
    (searchNodes gC10 " ").relations = gC10.relations.filter (fun r =>
      (gC10.entities.map (fun e => e.name)).contains r.from_ &&
      (gC10.entities.map (fun e => e.name)).contains r.to_) :=
  ⟨(searchNodes_blank_query gC10 " " (by decide)).1,
   (searchNodes_blank_query gC10 " " (by decide)).2.1⟩

/-- Witness graph for C8. -/
def gC8 : KnowledgeGraph :=
  ⟨[⟨"CS101", "course", []⟩, ⟨"HW1", "assignment", []⟩],
   [⟨"HW1", "CS101", "assigned_in"⟩]⟩

/-- Witness for C8: a relation with an absent endpoint is rejected, a valid
    fresh relation is appended. -/
theorem createRelations_spec_witness :
    (∃ msg, createRelations gC8 [⟨"HW2", "CS101", "assigned_in"⟩] =
      Except.error msg) ∧
    createRelations gC8 [⟨"CS101", "HW1", "graded_with"⟩] =
      Except.ok ⟨gC8.entities,
        gC8.relations ++ [⟨"CS101", "HW1", "graded_with"⟩]⟩ := by
  constructor
  · exact (createRelations_spec gC8 _).1
      ⟨⟨"HW2", "CS101", "assigned_in"⟩, by decide, by decide⟩
  · exact (createRelations_spec gC8 _).2 (by decide)

/-! ## C7: daysRemaining is the ceiling of the whole-day difference -/

theorem jsCeilDiv_spec (a b : Int) (hb : 0 < b) :
    a ≤ jsCeilDiv a b * b ∧ (jsCeilDiv a b - 1) * b < a := by
  unfold jsCeilDiv
  have h0 : Int.ediv (-a) b = -a / b := rfl
  rw [h0]
  have h1 := Int.ediv_add_emod (-a) b
  have h2 := Int.emod_nonneg (-a) (ne_of_gt hb)
  have h3 := Int.emod_lt_of_pos (-a) hb
  constructor <;> nlinarith [h1, h2, h3, mul_comm b (-a / b)]

theorem ceil_div_eq (n m D : Int) (hD : 0 < D) (h1 : m ≤ n * D)
    (h2 : (n - 1) * D < m) : (⌈(m : ℚ) / (D : ℚ)⌉ : ℤ) = n := by
  rw [Int.ceil_eq_iff]
  have hD' : (0 : ℚ) < (D : ℚ) := by exact_mod_cast hD
  constructor
  · rw [lt_div_iff₀ hD']
    have : ((n : ℚ) - 1) * (D : ℚ) < (m : ℚ) := by exact_mod_cast h2
    exact this
  · rw [div_le_iff₀ hD']
    exact_mod_cast h1

theorem mem_assignmentDeadlines (g : KnowledgeGraph) (today endDate : Int)
    (c : Entity) (dl : Deadline) (h : dl ∈ assignmentDeadlines g today endDate c) :
    dl.daysRemaining = jsCeilDiv (dl.dueDate - today) 86400000 ∧
    today ≤ dl.dueDate ∧ dl.dueDate ≤ endDate := by
  unfold assignmentDeadlines at h
  rw [List.mem_filterMap] at h
  obtain ⟨r, _, hf⟩ := h
  split at hf
  · split at hf
    · split at hf
      · split at hf
        · split at hf
          · rename_i hwin
            cases hf
            simp only [Bool.and_eq_true, decide_eq_true_eq] at hwin
            exact ⟨rfl, hwin.1, hwin.2⟩
          · exact absurd hf (by simp)
        · exact absurd hf (by simp)
      · exact absurd hf (by simp)
    · exact absurd hf (by simp)
  · exact absurd hf (by simp)

theorem mem_examDeadlines (g : KnowledgeGraph) (today endDate : Int)
    (c : Entity) (dl : Deadline) (h : dl ∈ examDeadlines g today endDate c) :
    dl.daysRemaining = jsCeilDiv (dl.dueDate - today) 86400000 ∧
    today ≤ dl.dueDate ∧ dl.dueDate ≤ endDate := by
  unfold examDeadlines at h
  rw [List.mem_filterMap] at h
  obtain ⟨r, _, hf⟩ := h
  split at hf
  · split at hf
    · split at hf
      · split at hf
        · split at hf
          · rename_i hwin
            cases hf
            simp only [Bool.and_eq_true, decide_eq_true_eq] at hwin
            exact ⟨rfl, hwin.1, hwin.2⟩
          · exact absurd hf (by simp)
        · exact absurd hf (by simp)
      · exact absurd hf (by simp)
    · exact absurd hf (by simp)
  · exact absurd hf (by simp)

theorem mem_deadlines_result (g : KnowledgeGraph) (tf cf : Option String)
    (da today : Int) (res : DeadlinesResult)
    (h : getUpcomingDeadlines g tf cf da today = Except.ok res) :
    ∀ dl ∈ res.deadlines,
      dl.daysRemaining = jsCeilDiv (dl.dueDate - today) 86400000 := by
  unfold getUpcomingDeadlines at h
  split at h
  · exact absurd h (by simp)
  · split at h
    · exact absurd h (by simp)
    · rename_i rc hrc
      cases h
      intro dl hdl
      simp only at hdl
      have hall : dl ∈ (rc.map (fun c =>
          assignmentDeadlines g today (today + da * 86400000) c ++
          examDeadlines g today (today + da * 86400000) c)).flatten := by
        have hperm := List.perm_insertionSort
          (fun a b : Deadline => a.dueDate ≤ b.dueDate)
          ((rc.map (fun c =>
            assignmentDeadlines g today (today + da * 86400000) c ++
            examDeadlines g today (today + da * 86400000) c)).flatten)
        exact hperm.mem_iff.mp hdl
      simp only [List.mem_flatten, List.mem_map] at hall
      obtain ⟨l, ⟨c, _, rfl⟩, hm⟩ := hall
      rcases List.mem_append.mp hm with hm | hm
      · exact (mem_assignmentDeadlines g today _ c dl hm).1
      · exact (mem_examDeadlines g today _ c dl hm).1

/-- C7: every deadline reported by `getUpcomingDeadlines` carries a
    `daysRemaining` equal to the ceiling of the time to the due date
    divided by 86,400,000 milliseconds (one day), where `today` is the
    query time. -/
theorem deadlines_daysRemaining_ceiling (g : KnowledgeGraph)
    (tf cf : Option String) (da today : Int) (res : DeadlinesResult)
    (h : getUpcomingDeadlines g tf cf da today = Except.ok res) :
    ∀ dl ∈ res.deadlines,
      (dl.daysRemaining = ⌈((dl.dueDate - today : ℤ) : ℚ) / 86400000⌉ ∧
       dl.dueDate - today ≤ dl.daysRemaining * 86400000 ∧
       (dl.daysRemaining - 1) * 86400000 < dl.dueDate - today) := by
  intro dl hdl
  have heq := mem_deadlines_result g tf cf da today res h dl hdl
  have hs := jsCeilDiv_spec (dl.dueDate - today) 86400000 (by norm_num)
  rw [← heq] at hs
  refine ⟨?_, hs.1, hs.2⟩
  have := ceil_div_eq dl.daysRemaining (dl.dueDate - today) 86400000
    (by norm_num) hs.1 hs.2
  exact_mod_cast this.symm

/-! ## C2: the term filter of getUpcomingDeadlines -/

/-- Concrete store for C2/C7: term `Fall2025`, course `CS101` that is
    `part_of` it, assignment `HW1` `assigned_in` the course and due
    2025-11-05. -/
def gC2 : KnowledgeGraph :=
  { entities :=
      [⟨"Fall2025", "term", []⟩,
       ⟨"CS101", "course", []⟩,
       ⟨"HW1", "assignment", ["Due: 2025-11-05"]⟩],
    relations :=
      [⟨"CS101", "Fall2025", "part_of"⟩,
       ⟨"HW1", "CS101", "assigned_in"⟩] }

/-- Query time for C2/C7: 2025-11-01 00:00 UTC. -/
def todayC2 : Int := 20393 * 86400000

/-- The single deadline `getUpcomingDeadlines` reports on `gC2` without a
    term filter. -/
def dlHW1 : Deadline :=
  ⟨⟨"HW1", "assignment", ["Due: 2025-11-05"]⟩, 20397 * 86400000,
   ⟨"CS101", "course", []⟩, 4⟩

/-- C2 (failing input): `CS101` is `part_of` `Fall2025`, `HW1` is due inside
    the 14-day window — the unfiltered query reports it — yet the query
    filtered by the existing term `Fall2025` reports nothing, because the
    source's course-collection condition demands `relation.from ===
    relation.to` and therefore never matches an actual `course part_of
    term` relation. -/
theorem getUpcomingDeadlines_term_filter_bug :
    (∃ r ∈ gC2.relations, r.relationType = "part_of" ∧
      r.from_ = "CS101" ∧ r.to_ = "Fall2025") ∧
    (∃ e ∈ gC2.entities, e.name = "Fall2025" ∧ e.entityType = "term") ∧
    getUpcomingDeadlines gC2 none none 14 todayC2 =
      Except.ok ⟨[dlHW1], 1⟩ ∧
    getUpcomingDeadlines gC2 (some "Fall2025") none 14 todayC2 =
      Except.ok ⟨[], 0⟩ := by
  decide

/-- Witness for C7 at the concrete store. -/
theorem deadlines_daysRemaining_ceiling_witness :
    getUpcomingDeadlines gC2 none none 14 todayC2 =
      Except.ok ⟨[dlHW1], 1⟩ ∧
    dlHW1 ∈ (⟨[dlHW1], 1⟩ : DeadlinesResult).deadlines ∧
    (dlHW1.daysRemaining =
        ⌈((dlHW1.dueDate - todayC2 : ℤ) : ℚ) / 86400000⌉ ∧
     dlHW1.dueDate - todayC2 ≤ dlHW1.daysRemaining * 86400000 ∧
     (dlHW1.daysRemaining - 1) * 86400000 < dlHW1.dueDate - todayC2) :=
  ⟨by decide, by decide,
   deadlines_daysRemaining_ceiling gC2 none none 14 todayC2 ⟨[dlHW1], 1⟩
     (by decide) dlHW1 (by decide)⟩

/-! ## C4: breadth-first related-concept traversal

    The lemmas below establish the specification of the expansion passes
    (every emitted queue entry carries a name that was fresh for the
    processed set and is recorded in it, the emitted names are pairwise
    distinct, every emitted entry sits one level deeper) and from them both
    the sufficiency of `bfsFuel` and the result-shape invariants of the
    loop. -/

theorem expandPass_processed (sel : Relation → Option (String × String))
    (d : Nat) (path : List String) :
    ∀ (rs : List Relation) (p : List String),
    (expandPass sel d path rs p).2 =
      p ++ ((expandPass sel d path rs p).1.map QItem.name) := by
  intro rs
  induction rs with
  | nil => intro p; simp [expandPass]
  | cons r rest ih =>
    intro p
    unfold expandPass
    cases hsel : sel r with
    | none => simpa using ih p
    | some nd =>
      obtain ⟨next, desc⟩ := nd
      by_cases hmem : p.contains next
      · simp only [hmem, if_true]
        exact ih p
      · simp only [hmem, Bool.false_eq_true, if_false, List.map_cons]
        rw [ih (p ++ [next])]
        simp

theorem expandPass_fresh (sel : Relation → Option (String × String))
    (d : Nat) (path : List String) :
    ∀ (rs : List Relation) (p : List String),
    ((expandPass sel d path rs p).1.map QItem.name).Nodup ∧
    (∀ n ∈ (expandPass sel d path rs p).1.map QItem.name, n ∉ p) := by
  intro rs
  induction rs with
  | nil => intro p; simp [expandPass]
  | cons r rest ih =>
    intro p
    unfold expandPass
    cases hsel : sel r with
    | none => exact ih p
    | some nd =>
      obtain ⟨next, desc⟩ := nd
      by_cases hmem : p.contains next
      · simp only [hmem, if_true]
        exact ih p
      · simp only [hmem, Bool.false_eq_true, if_false, List.map_cons]
        obtain ⟨ihd, ihf⟩ := ih (p ++ [next])
        have hnext : next ∉ p := by
          intro hc
          exact hmem (by simpa [List.contains, List.elem_iff] using hc)
        constructor
        · refine List.nodup_cons.mpr ⟨?_, ihd⟩
          intro hc
          have := ihf next hc
          simp at this
        · intro n hn
          rcases List.mem_cons.mp hn with rfl | hn
          · exact hnext
          · intro hc
            exact ihf n hn (by simp [hc])

theorem expandPass_depth (sel : Relation → Option (String × String))
    (d : Nat) (path : List String) :
    ∀ (rs : List Relation) (p : List String),
    ∀ x ∈ (expandPass sel d path rs p).1, x.currentDepth = d + 1 := by
  intro rs
  induction rs with
  | nil => intro p; simp [expandPass]
  | cons r rest ih =>
    intro p
    unfold expandPass
    cases hsel : sel r with
    | none => exact ih p
    | some nd =>
      obtain ⟨next, desc⟩ := nd
      by_cases hmem : p.contains next
      · simp only [hmem, if_true]
        exact ih p
      · simp only [hmem, Bool.false_eq_true, if_false]
        intro x hx
        rcases List.mem_cons.mp hx with rfl | hx
        · rfl
        · exact ih (p ++ [next]) x hx

theorem expandPass_names_mem (sel : Relation → Option (String × String))
    (d : Nat) (path : List String) :
    ∀ (rs : List Relation) (p : List String),
    ∀ n ∈ (expandPass sel d path rs p).1.map QItem.name,
      ∃ r ∈ rs, ∃ desc, sel r = some (n, desc) := by
  intro rs
  induction rs with
  | nil => intro p; simp [expandPass]
  | cons r rest ih =>
    intro p
    unfold expandPass
    cases hsel : sel r with
    | none =>
      intro n hn
      obtain ⟨r', hr', hd⟩ := ih p n hn
      exact ⟨r', List.mem_cons_of_mem _ hr', hd⟩
    | some nd =>
      obtain ⟨next, desc⟩ := nd
      by_cases hmem : p.contains next
      · simp only [hmem, if_true]
        intro n hn
        obtain ⟨r', hr', hd⟩ := ih p n hn
        exact ⟨r', List.mem_cons_of_mem _ hr', hd⟩
      · simp only [hmem, Bool.false_eq_true, if_false, List.map_cons]
        intro n hn
        rcases List.mem_cons.mp hn with rfl | hn
        · exact ⟨r, List.mem_cons_self _ _, desc, hsel⟩
        · obtain ⟨r', hr', hd⟩ := ih (p ++ [next]) n hn
          exact ⟨r', List.mem_cons_of_mem _ hr', hd⟩

/-- Count of universe names not yet in the processed set. -/
def unprocCount (U p : List String) : Nat := (U.toFinset \ p.toFinset).card

theorem unprocCount_append_fresh (U p : List String) (n : String)
    (hU : n ∈ U) (hp : n ∉ p) :
    unprocCount U (p ++ [n]) + 1 = unprocCount U p := by
  unfold unprocCount
  have h1 : (p ++ [n]).toFinset = insert n p.toFinset := by
    rw [List.toFinset_append]
    simp [Finset.union_comm, Finset.insert_eq]
  rw [h1, Finset.sdiff_insert]
  exact Finset.card_erase_add_one (Finset.mem_sdiff.mpr
    ⟨List.mem_toFinset.mpr hU, fun hc => hp (List.mem_toFinset.mp hc)⟩)

theorem expandPass_count (sel : Relation → Option (String × String))
    (d : Nat) (path : List String) (U : List String) :
    ∀ (rs : List Relation) (p : List String),
    (∀ r ∈ rs, ∀ n desc, sel r = some (n, desc) → n ∈ U) →
    unprocCount U (expandPass sel d path rs p).2 +
      (expandPass sel d path rs p).1.length = unprocCount U p := by
  intro rs
  induction rs with
  | nil => intro p _; simp [expandPass]
  | cons r rest ih =>
    intro p hU
    unfold expandPass
    cases hsel : sel r with
    | none =>
      simpa using ih p (fun r' hr' => hU r' (List.mem_cons_of_mem _ hr'))
    | some nd =>
      obtain ⟨next, desc⟩ := nd
      by_cases hmem : p.contains next
      · simp only [hmem, if_true]
        exact ih p (fun r' hr' => hU r' (List.mem_cons_of_mem _ hr'))
      · simp only [hmem, Bool.false_eq_true, if_false, List.length_cons]
        have hnext : next ∉ p := by
          intro hc
          exact hmem (by simpa [List.contains, List.elem_iff] using hc)
        have hUn : next ∈ U := hU r (List.mem_cons_self _ _) next desc hsel
        have h1 := ih (p ++ [next])
          (fun r' hr' => hU r' (List.mem_cons_of_mem _ hr'))
        have h2 := unprocCount_append_fresh U p next hUn hnext
        omega

theorem relatedNext_endpoint (name : String) (r : Relation) (n desc : String)
    (h : relatedNext name r = some (n, desc)) :
    n = r.from_ ∨ n = r.to_ := by
  unfold relatedNext at h
  split at h
  · split at h
    · cases h; exact Or.inr rfl
    · split at h
      · cases h; exact Or.inl rfl
      · cases h
  · cases h

theorem prereqNext_endpoint (name : String) (r : Relation) (n desc : String)
    (h : prereqNext name r = some (n, desc)) :
    n = r.from_ ∨ n = r.to_ := by
  unfold prereqNext at h
  split at h
  · split at h
    · cases h; exact Or.inr rfl
    · split at h
      · cases h; exact Or.inl rfl
      · cases h
  · cases h

theorem endpoint_mem (g : KnowledgeGraph) (r : Relation)
    (hr : r ∈ g.relations) (n : String) (h : n = r.from_ ∨ n = r.to_) :
    n ∈ relationEndpoints g := by
  unfold relationEndpoints
  rcases h with rfl | rfl
  · exact List.mem_append_left _ (List.mem_map.mpr ⟨r, hr, rfl⟩)
  · exact List.mem_append_right _ (List.mem_map.mpr ⟨r, hr, rfl⟩)

theorem expand_processed (g : KnowledgeGraph) (processed : List String)
    (name : String) (d : Nat) (path : List String) :
    (expand g processed name d path).2 =
      processed ++ ((expand g processed name d path).1.map QItem.name) := by
  unfold expand
  rw [expandPass_processed, expandPass_processed]
  simp

theorem expand_fresh (g : KnowledgeGraph) (processed : List String)
    (name : String) (d : Nat) (path : List String) :
    ((expand g processed name d path).1.map QItem.name).Nodup ∧
    (∀ n ∈ (expand g processed name d path).1.map QItem.name,
      n ∉ processed) := by
  unfold expand
  simp only [List.map_append]
  obtain ⟨h1d, h1f⟩ := expandPass_fresh (relatedNext name) d path
    g.relations processed
  obtain ⟨h2d, h2f⟩ := expandPass_fresh (prereqNext name) d path g.relations
    (expandPass (relatedNext name) d path g.relations processed).2
  have hp := expandPass_processed (relatedNext name) d path
    g.relations processed
  constructor
  · rw [List.nodup_append]
    refine ⟨h1d, h2d, ?_⟩
    intro a ha hb
    have := h2f a hb
    rw [hp] at this
    exact this (List.mem_append_right _ ha)
  · intro n hn
    rcases List.mem_append.mp hn with hn | hn
    · exact h1f n hn
    · intro hc
      have := h2f n hn
      rw [hp] at this
      exact this (List.mem_append_left _ hc)

theorem expand_depth (g : KnowledgeGraph) (processed : List String)
    (name : String) (d : Nat) (path : List String) :
    ∀ x ∈ (expand g processed name d path).1, x.currentDepth = d + 1 := by
  unfold expand
  intro x hx
  rcases List.mem_append.mp hx with hx | hx
  · exact expandPass_depth _ _ _ _ _ x hx
  · exact expandPass_depth _ _ _ _ _ x hx

theorem expand_count (g : KnowledgeGraph) (processed : List String)
    (name : String) (d : Nat) (path : List String) :
    unprocCount (relationEndpoints g) (expand g processed name d path).2 +
      (expand g processed name d path).1.length =
      unprocCount (relationEndpoints g) processed := by
  unfold expand
  simp only [List.length_append]
  have h1 := expandPass_count (relatedNext name) d path (relationEndpoints g)
    g.relations processed
    (fun r hr n desc hs =>
      endpoint_mem g r hr n (relatedNext_endpoint name r n desc hs))
  have h2 := expandPass_count (prereqNext name) d path (relationEndpoints g)
    g.relations
    (expandPass (relatedNext name) d path g.relations processed).2
    (fun r hr n desc hs =>
      endpoint_mem g r hr n (prereqNext_endpoint name r n desc hs))
  omega

theorem bfsLoop_some_of_fuel (g : KnowledgeGraph) (depth : Nat)
    (cname : String) :
    ∀ (fuel : Nat) (queue : List QItem) (processed : List String)
      (results : List RCItem),
    queue.length + 2 * unprocCount (relationEndpoints g) processed ≤ fuel →
    ∃ res, bfsLoop g depth cname fuel queue processed results = some res := by
  intro fuel
  induction fuel with
  | zero =>
    intro queue processed results h
    have hq : queue = [] := by
      cases queue with
      | nil => rfl
      | cons a l => simp at h
    subst hq
    exact ⟨results, rfl⟩
  | succ n ih =>
    intro queue processed results h
    cases queue with
    | nil => exact ⟨results, rfl⟩
    | cons item rest =>
      unfold bfsLoop
      split
      · exact ih rest processed results (by simp at h ⊢; omega)
      · split
        · exact ih rest processed results (by simp at h ⊢; omega)
        · have hc := expand_count g processed item.name item.currentDepth
            item.path
          refine ih _ _ _ ?_
          simp only [List.length_append]
          simp only [List.length_cons] at h
          omega

/-- The fuel chosen by `findRelatedConcepts` always suffices: the loop
    never reaches the fuel-exhaustion branch, so the embedded
    `findRelatedConcepts` never takes its (source-absent) `none` case. -/
theorem bfsLoop_bfsFuel_some (g : KnowledgeGraph) (depth : Nat)
    (cname : String) :
    ∃ res, bfsLoop g depth cname (bfsFuel g)
      [⟨cname, 0, []⟩] [cname] [] = some res := by
  refine bfsLoop_some_of_fuel g depth cname (bfsFuel g) _ _ _ ?_
  unfold bfsFuel unprocCount
  have h1 : ((relationEndpoints g).toFinset \ [cname].toFinset).card ≤
      (relationEndpoints g).toFinset.card :=
    Finset.card_le_card (Finset.sdiff_subset)
  have h2 : (relationEndpoints g).toFinset.card ≤
      (relationEndpoints g).length := List.toFinset_card_le _
  simp only [List.length_cons, List.length_nil]
  omega

theorem pairwise_le_const (l : List Nat) (v : Nat) (h : ∀ x ∈ l, x = v) :
    List.Pairwise (fun a b => a ≤ b) l := by
  induction l with
  | nil => exact List.Pairwise.nil
  | cons a t ih =>
    refine List.pairwise_cons.mpr ⟨?_, ih (fun x hx => h x (by simp [hx]))⟩
    intro b hb
    rw [h a (by simp), h b (by simp [hb])]

theorem bfs_nodup_step (A C : List String) (proc : List String)
    (hA : A.Nodup) (hsub : ∀ n ∈ A, n ∈ proc)
    (hC : C.Nodup) (hCf : ∀ n ∈ C, n ∉ proc) :
    (A ++ C).Nodup :=
  List.nodup_append.mpr ⟨hA, hC, fun a ha hb => hCf a hb (hsub a ha)⟩

/-- Depth bookkeeping of one dequeue-and-expand step, at the level of the
    plain depth lists: from sortedness of `results ++ item :: rest` and the
    two-level queue property, both possible new results lists stay sorted
    against the new queue `rest ++ expansion` (all expansion depths are
    `d + 1`). -/
theorem bfs_pairwise_step (RD rest EX : List Nat) (d : Nat)
    (hp : List.Pairwise (fun a b => a ≤ b) (RD ++ (d :: rest)))
    (hEX : ∀ x ∈ EX, x = d + 1)
    (hrest : ∀ x ∈ rest, x ≤ d + 1) :
    List.Pairwise (fun a b => a ≤ b) (RD ++ (rest ++ EX)) ∧
    List.Pairwise (fun a b => a ≤ b) ((RD ++ [d]) ++ (rest ++ EX)) := by
  obtain ⟨hRD, hgd, hcross⟩ := List.pairwise_append.mp hp
  obtain ⟨hdle, hrestp⟩ := List.pairwise_cons.mp hgd
  have hBC : List.Pairwise (fun a b => a ≤ b) (rest ++ EX) := by
    rw [List.pairwise_append]
    refine ⟨hrestp, pairwise_le_const EX (d + 1) hEX, ?_⟩
    intro a ha b hb
    rw [hEX b hb]
    exact hrest a ha
  constructor
  · rw [List.pairwise_append]
    refine ⟨hRD, hBC, ?_⟩
    intro a ha b hb
    rcases List.mem_append.mp hb with hb | hb
    · exact hcross a ha b (List.mem_cons_of_mem _ hb)
    · rw [hEX b hb]
      have := hcross a ha d (List.mem_cons_self _ _)
      omega
  · rw [List.pairwise_append]
    refine ⟨?_, hBC, ?_⟩
    · rw [List.pairwise_append]
      refine ⟨hRD, List.pairwise_singleton _ _, ?_⟩
      intro a ha b hb
      rw [List.mem_singleton.mp hb]
      exact hcross a ha d (List.mem_cons_self _ _)
    · intro a ha b hb
      rcases List.mem_append.mp ha with ha | ha
      · rcases List.mem_append.mp hb with hb | hb
        · exact hcross a ha b (List.mem_cons_of_mem _ hb)
        · rw [hEX b hb]
          have := hcross a ha d (List.mem_cons_self _ _)
          omega
      · rw [List.mem_singleton.mp ha]
        rcases List.mem_append.mp hb with hb | hb
        · exact hdle b hb
        · rw [hEX b hb]
          omega

/-- Shape invariants of the breadth-first loop: whenever the loop finishes
    from a state whose results and queue carry pairwise-distinct,
    already-processed names, depth-bounded results, a globally sorted
    results-then-queue depth sequence and a two-level queue, the final
    result list has pairwise-distinct concept names, all depths within the
    bound, and non-decreasing depths. -/
theorem bfsLoop_invariant (g : KnowledgeGraph) (depth : Nat)
    (cname : String) :
    ∀ (fuel : Nat) (queue : List QItem) (processed : List String)
      (results : List RCItem) (res : List RCItem),
    bfsLoop g depth cname fuel queue processed results = some res →
    (results.map (fun i => i.concept.name) ++ queue.map QItem.name).Nodup →
    (∀ n ∈ results.map (fun i => i.concept.name) ++ queue.map QItem.name,
      n ∈ processed) →
    (∀ x ∈ results, x.depth ≤ depth) →
    List.Pairwise (fun a b => a ≤ b)
      (results.map RCItem.depth ++ queue.map QItem.currentDepth) →
    (∀ x ∈ queue, ∀ y ∈ queue, x.currentDepth ≤ y.currentDepth + 1) →
    ((res.map (fun i => i.concept.name)).Nodup ∧
     (∀ x ∈ res, x.depth ≤ depth) ∧
     List.Pairwise (fun a b => a ≤ b) (res.map RCItem.depth)) := by
  intro fuel
  induction fuel with
  | zero =>
    intro queue processed results res h hnd hsub hdep hpair hB
    cases queue with
    | nil =>
      cases h
      simp only [List.map_nil, List.append_nil] at hnd hpair
      exact ⟨hnd, hdep, hpair⟩
    | cons a l => exact absurd h (by simp [bfsLoop])
  | succ n ih =>
    intro queue processed results res h hnd hsub hdep hpair hB
    cases queue with
    | nil =>
      cases h
      simp only [List.map_nil, List.append_nil] at hnd hpair
      exact ⟨hnd, hdep, hpair⟩
    | cons item rest =>
      have hsubl1 : (results.map (fun i => i.concept.name) ++
          rest.map QItem.name).Sublist
          (results.map (fun i => i.concept.name) ++
            (item :: rest).map QItem.name) := by
        simp only [List.map_cons]
        exact (List.sublist_cons_self _ _).append_left _
      have hsubl2 : (results.map RCItem.depth ++
          rest.map QItem.currentDepth).Sublist
          (results.map RCItem.depth ++
            (item :: rest).map QItem.currentDepth) := by
        simp only [List.map_cons]
        exact (List.sublist_cons_self _ _).append_left _
      unfold bfsLoop at h
      split at h
      · exact ih rest processed results res h (hnd.sublist hsubl1)
          (fun x hx => hsub x (hsubl1.mem hx)) hdep
          (hpair.sublist hsubl2)
          (fun x hx y hy => hB x (List.mem_cons_of_mem _ hx)
            y (List.mem_cons_of_mem _ hy))
      · split at h
        · exact ih rest processed results res h (hnd.sublist hsubl1)
            (fun x hx => hsub x (hsubl1.mem hx)) hdep
            (hpair.sublist hsubl2)
            (fun x hx y hy => hB x (List.mem_cons_of_mem _ hx)
              y (List.mem_cons_of_mem _ hy))
        · rename_i hnskip hscrut c hfind
          have hcn : c.name = item.name ∧ c.entityType = "concept" := by
            have := List.find?_some hfind
            simp only [Bool.and_eq_true, decide_eq_true_eq] at this
            exact this
          obtain ⟨hexd, hexf⟩ := expand_fresh g processed item.name
            item.currentDepth item.path
          have hexp := expand_processed g processed item.name
            item.currentDepth item.path
          have hexdep := expand_depth g processed item.name
            item.currentDepth item.path
          -- depth facts about the queue
          have hrest_le : ∀ x ∈ rest, x.currentDepth ≤
              item.currentDepth + 1 :=
            fun x hx => hB x (List.mem_cons_of_mem _ hx)
              item (List.mem_cons_self _ _)
          have hEXd : ∀ x ∈ (expand g processed item.name item.currentDepth
              item.path).1.map QItem.currentDepth,
              x = item.currentDepth + 1 := by
            intro x hx
            obtain ⟨q, hq, rfl⟩ := List.mem_map.mp hx
            exact hexdep q hq
          have hrestd : ∀ x ∈ rest.map QItem.currentDepth,
              x ≤ item.currentDepth + 1 := by
            intro x hx
            obtain ⟨q, hq, rfl⟩ := List.mem_map.mp hx
            exact hrest_le q hq
          have hpair' : List.Pairwise (fun a b => a ≤ b)
              (results.map RCItem.depth ++
                (item.currentDepth :: rest.map QItem.currentDepth)) := by
            simpa using hpair
          obtain ⟨hpw1, hpw2⟩ := bfs_pairwise_step
            (results.map RCItem.depth) (rest.map QItem.currentDepth)
            ((expand g processed item.name item.currentDepth
              item.path).1.map QItem.currentDepth)
            item.currentDepth hpair' hEXd hrestd
          -- two-level property of the new queue
          have hdle : ∀ y ∈ rest, item.currentDepth ≤ y.currentDepth := by
            have := (List.pairwise_append.mp hpair').2.1
            intro y hy
            exact (List.pairwise_cons.mp this).1 _
              (List.mem_map.mpr ⟨y, hy, rfl⟩)
          have hB' : ∀ x ∈ rest ++ (expand g processed item.name
              item.currentDepth item.path).1,
              ∀ y ∈ rest ++ (expand g processed item.name
                item.currentDepth item.path).1,
              x.currentDepth ≤ y.currentDepth + 1 := by
            intro x hx y hy
            rcases List.mem_append.mp hx with hx | hx <;>
              rcases List.mem_append.mp hy with hy | hy
            · exact hB x (List.mem_cons_of_mem _ hx)
                y (List.mem_cons_of_mem _ hy)
            · rw [hexdep y hy]
              have := hrest_le x hx
              omega
            · rw [hexdep x hx]
              have := hdle y hy
              omega
            · rw [hexdep x hx, hexdep y hy]
              omega
          -- name facts
          have hname_sub : ∀ nm ∈ results.map (fun i => i.concept.name) ++
              rest.map QItem.name, nm ∈ processed := by
            intro nm hnm
            exact hsub nm (hsubl1.mem hnm)
          have hitem_proc : item.name ∈ processed :=
            hsub item.name (by simp)
          by_cases hceq : item.name = cname
          · -- the seed itself: expanded but not reported
            rw [if_pos hceq] at h
            refine ih _ _ _ _ h ?_ ?_ hdep ?_ hB'
            · simp only [List.map_append]
              rw [← List.append_assoc]
              exact bfs_nodup_step _ _ processed
                (hnd.sublist hsubl1) hname_sub hexd hexf
            · intro nm hnm
              rw [hexp]
              simp only [List.map_append] at hnm
              rw [← List.append_assoc] at hnm
              rcases List.mem_append.mp hnm with hnm | hnm
              · exact List.mem_append_left _ (hname_sub nm hnm)
              · exact List.mem_append_right _ hnm
            · simpa only [List.map_append] using hpw1
          · -- reported item
            rw [if_neg hceq] at h
            have hdep_item : item.currentDepth ≤ depth := by
              by_contra hgt
              exact hnskip ⟨by omega, hceq⟩
            refine ih _ _ _ _ h ?_ ?_ ?_ ?_ hB'
            · simp only [List.map_append, List.map_cons, List.map_nil]
              have hnd2 : ((results.map (fun i => i.concept.name) ++
                  [item.name]) ++ rest.map QItem.name).Nodup := by
                rw [← List.append_cons]
                simpa using hnd
              have hsub2 : ∀ nm ∈ (results.map (fun i => i.concept.name) ++
                  [item.name]) ++ rest.map QItem.name, nm ∈ processed := by
                intro nm hnm
                rw [← List.append_cons] at hnm
                exact hsub nm (by simpa using hnm)
              have := bfs_nodup_step _ _ processed hnd2 hsub2 hexd hexf
              simpa [hcn.1, List.append_assoc] using this
            · intro nm hnm
              rw [hexp]
              simp only [List.map_append, List.map_cons, List.map_nil]
                at hnm
              rcases List.mem_append.mp hnm with hnm | hnm
              · rcases List.mem_append.mp hnm with hnm | hnm
                · exact List.mem_append_left _ (hsub nm
                    (List.mem_append_left _ hnm))
                · simp only [List.mem_singleton] at hnm
                  rw [hnm, hcn.1]
                  exact List.mem_append_left _ hitem_proc
              · rcases List.mem_append.mp hnm with hnm | hnm
                · exact List.mem_append_left _ (hsub nm
                    (by simp only [List.map_cons]
                        exact List.mem_append_right _
                          (List.mem_cons_of_mem _ hnm)))
                · exact List.mem_append_right _ hnm
            · intro x hx
              rcases List.mem_append.mp hx with hx | hx
              · exact hdep x hx
              · simp only [List.mem_singleton] at hx
                rw [hx]
                exact hdep_item
            · simpa only [List.map_append, List.map_cons, List.map_nil]
                using hpw2

theorem findRelatedConcepts_props (g : KnowledgeGraph) (cname : String)
    (depth : Nat) (out : RelatedConceptsResult)
    (h : findRelatedConcepts g cname depth = Except.ok out) :
    ((out.relatedConcepts.map (fun i => i.concept.name)).Nodup ∧
     (∀ x ∈ out.relatedConcepts, x.depth ≤ depth) ∧
     List.Pairwise (fun a b : RCItem => a.depth ≤ b.depth)
       out.relatedConcepts ∧
     bfsLoop g depth cname (bfsFuel g) [⟨cname, 0, []⟩] [cname] [] =
       some out.relatedConcepts) := by
  unfold findRelatedConcepts at h
  split at h
  · exact absurd h (by simp)
  · split at h
    · rename_i concept hfind raw hraw
      cases h
      have hinv := bfsLoop_invariant g depth cname (bfsFuel g)
        [⟨cname, 0, []⟩] [cname] [] raw hraw
        (by simp) (by simp) (by simp) (by simp)
        (by
          intro x hx y hy
          rw [List.mem_singleton] at hx hy
          subst hx
          subst hy
          simp)
      obtain ⟨hndr, hdepr, hpairr⟩ := hinv
      have hsorted : List.Pairwise (fun a b : RCItem => a.depth ≤ b.depth)
          raw := List.pairwise_map.mp hpairr
      have heq : List.insertionSort
          (fun a b : RCItem => a.depth ≤ b.depth) raw = raw :=
        List.Sorted.insertionSort_eq hsorted
      simp only [heq]
      exact ⟨hndr, hdepr, hsorted, hraw⟩
    · exact absurd h (by simp)

/-- The three-concept chain graph of the specification example
    (`X related_to Y`, `Y prerequisite_for Z`). -/
def gXYZ : KnowledgeGraph :=
  { entities := [⟨"X", "concept", []⟩, ⟨"Y", "concept", []⟩,
      ⟨"Z", "concept", []⟩],
    relations := [⟨"X", "Y", "related_to"⟩,
      ⟨"Y", "Z", "prerequisite_for"⟩] }

/-- The chain graph plus one extra `X related_to Z` edge. -/
def gXYZplus : KnowledgeGraph :=
  { entities := [⟨"X", "concept", []⟩, ⟨"Y", "concept", []⟩,
      ⟨"Z", "concept", []⟩],
    relations := [⟨"X", "Y", "related_to"⟩,
      ⟨"Y", "Z", "prerequisite_for"⟩, ⟨"X", "Z", "related_to"⟩] }

/-- C4 counterexample to the universally quantified first half: in a graph
    that *contains* the claimed chain but also an `X related_to Z` edge,
    `Z` is discovered at depth 1, not 2 (first visit wins), so the claim
    "for every graph containing ... Z (at depth 2)" fails as stated. -/
theorem findRelatedConcepts_extra_edge_cex :
    findRelatedConcepts gXYZplus "X" 2 =
      Except.ok ⟨⟨"X", "concept", []⟩,
        [⟨⟨"Y", "concept", []⟩, ["related_to Y"], 1, [], []⟩,
         ⟨⟨"Z", "concept", []⟩, ["related_to Z"], 1, [], []⟩]⟩ ∧
    (([⟨⟨"Y", "concept", []⟩, ["related_to Y"], 1, [], []⟩,
       ⟨⟨"Z", "concept", []⟩, ["related_to Z"], 1, [], []⟩] :
        List RCItem).all
      (fun i => !(i.concept.name = "Z" && i.depth = 2))) = true := by
  decide

/-- C4 (amended): on the specification's chain graph itself the traversal
    returns `Y` at depth 1 and `Z` at depth 2, in that order; and for every
    graph, seed and depth bound, a successful traversal returns pairwise
    distinct concepts ordered by non-decreasing depth, none beyond the
    requested depth, and the returned order is exactly the discovery
    (dequeue) order of the loop — the stable sort leaves it unchanged. -/
theorem findRelatedConcepts_spec :
    (findRelatedConcepts gXYZ "X" 2 =
      Except.ok ⟨⟨"X", "concept", []⟩,
        [⟨⟨"Y", "concept", []⟩, ["related_to Y"], 1, [], []⟩,
         ⟨⟨"Z", "concept", []⟩,
           ["related_to Y", "prerequisite_for Z"], 2, [], []⟩]⟩) ∧
    (∀ (g : KnowledgeGraph) (cname : String) (depth : Nat)
      (out : RelatedConceptsResult),
      findRelatedConcepts g cname depth = Except.ok out →
      ((out.relatedConcepts.map (fun i => i.concept.name)).Nodup ∧
       (∀ x ∈ out.relatedConcepts, x.depth ≤ depth) ∧
       List.Pairwise (fun a b : RCItem => a.depth ≤ b.depth)
         out.relatedConcepts ∧
       bfsLoop g depth cname (bfsFuel g) [⟨cname, 0, []⟩] [cname] [] =
         some out.relatedConcepts)) :=
  ⟨by decide, fun g c d out h => findRelatedConcepts_props g c d out h⟩

/-- Witness for the quantified half of the C4 theorem at the chain graph. -/
theorem findRelatedConcepts_spec_witness :
    (((⟨⟨"X", "concept", []⟩,
        [⟨⟨"Y", "concept", []⟩, ["related_to Y"], 1, [], []⟩,
         ⟨⟨"Z", "concept", []⟩,
           ["related_to Y", "prerequisite_for Z"], 2, [], []⟩]⟩ :
        RelatedConceptsResult).relatedConcepts.map
          (fun i => i.concept.name)).Nodup ∧
     (∀ x ∈ (⟨⟨"X", "concept", []⟩,
        [⟨⟨"Y", "concept", []⟩, ["related_to Y"], 1, [], []⟩,
         ⟨⟨"Z", "concept", []⟩,
           ["related_to Y", "prerequisite_for Z"], 2, [], []⟩]⟩ :
        RelatedConceptsResult).relatedConcepts, x.depth ≤ 2) ∧
     List.Pairwise (fun a b : RCItem => a.depth ≤ b.depth)
       (⟨⟨"X", "concept", []⟩,
        [⟨⟨"Y", "concept", []⟩, ["related_to Y"], 1, [], []⟩,
         ⟨⟨"Z", "concept", []⟩,
           ["related_to Y", "prerequisite_for Z"], 2, [], []⟩]⟩ :
        RelatedConceptsResult).relatedConcepts ∧
     bfsLoop gXYZ 2 "X" (bfsFuel gXYZ) [⟨"X", 0, []⟩] ["X"] [] =
       some (⟨⟨"X", "concept", []⟩,
        [⟨⟨"Y", "concept", []⟩, ["related_to Y"], 1, [], []⟩,
         ⟨⟨"Z", "concept", []⟩,
           ["related_to Y", "prerequisite_for Z"], 2, [], []⟩]⟩ :
        RelatedConceptsResult).relatedConcepts) :=
  findRelatedConcepts_spec.2 gXYZ "X" 2 _ (by decide)

/-! ## C3: unknown session id at end-session -/

/-- C3: an `endsession` call whose session id is absent from the
    session-state store is rejected up front: it returns the
    session-not-found error result and leaves both the session-state store
    and the knowledge graph exactly as they were. -/
theorem endsession_unknown_session (p : EndSessionParams)
    (states : SessionStates) (g : KnowledgeGraph) (nowDate : String)
    (h : lookupSession states p.sessionId = none) :
    endsession p states g nowDate =
      (EndSessionResult.sessionNotFound p.sessionId, states, g) := by
  unfold endsession
  rw [h]

/-- Witness for C3 at a concrete call. -/
theorem endsession_unknown_session_witness :
    endsession ⟨"S9", "assembly", 1, 1, none, none, false, none, none⟩
      ([] : SessionStates) emptyGraph "2025-11-01" =
      (EndSessionResult.sessionNotFound "S9", ([] : SessionStates),
        emptyGraph) :=
  endsession_unknown_session _ _ _ _ (by decide)

/-! ## C1: assignment updates in the terminal assembly stage -/

/-- Accumulated stages of the C1 scenario: a summary stage naming course
    `CS101` and an `assignmentUpdates` stage reporting `HW1` as
    `completed`. -/
def sessionS1Events : List SessionEvent :=
  [SessionEvent.analysisStage
     ⟨"summary", 1, "", StagePayload.data
       { summary := some "studied", duration := some "2 hours",
         course := some "CS101" }, false⟩,
   SessionEvent.analysisStage
     ⟨"assignmentUpdates", 2, "", StagePayload.data
       { updates := some [⟨"HW1", "completed"⟩] }, false⟩]

/-- Session-state store of the C1 scenario. -/
def statesC1 : SessionStates := [("S1", sessionS1Events)]

/-- Graph of the C1 scenario: the course and the assignment whose `status:`
    observation the session reports as updated. -/
def gC1 : KnowledgeGraph :=
  { entities := [⟨"CS101", "course", ["status:current"]⟩,
      ⟨"HW1", "assignment", ["status:in_progress", "Due: 2025-11-05"]⟩],
    relations := [⟨"HW1", "CS101", "assigned_in"⟩] }

/-- Terminal assembly call of the C1 scenario. -/
def pC1 : EndSessionParams :=
  { sessionId := "S1", stage := "assembly", stageNumber := 3,
    totalStages := 3, nextStageNeeded := false }

/-- C1 (failing input): the accumulated stages do report the `HW1` update
    and the terminal assembly stage runs to a success result — but the
    lookup `searchNodes("name:" + name)` matches nothing (the term
    `name:hw1` is a substring of no field of the assignment), so the update
    is silently skipped and the graph comes back byte-for-byte unchanged:
    the stored `status:` observation still holds the old value rather than
    the reported one. -/
theorem endsession_assembly_status_not_updated :
    (assembleEndSessionArgs sessionS1Events "2025-11-01").assignmentUpdates
      = [⟨"HW1", "completed"⟩] ∧
    (assembleEndSessionArgs sessionS1Events "2025-11-01").course
      = "CS101" ∧
    (searchNodes gC1 ("name:" ++ "HW1")).entities = [] ∧
    (endsession pC1 statesC1 gC1 "2025-11-01").1 =
      EndSessionResult.recorded ∧
    (endsession pC1 statesC1 gC1 "2025-11-01").2.2 = gC1 ∧
    gC1.entities.filter (fun e => e.name = "HW1") =
      [⟨"HW1", "assignment", ["status:in_progress", "Due: 2025-11-05"]⟩] ∧
    ¬ ("status:completed" ∈
      (["status:in_progress", "Due: 2025-11-05"] : List String)) := by
  decide

end StudentMCP
